import Mathlib

/-!
# CobbleGuard: `static_vector<T, Capacity>`

A shallow embedding of `src/static_vector.hpp` and a verification of its
contract.

Modelling decisions, each traceable to a source line:

* `union { T m_data[Capacity]; }` is a list of `Capacity` slots; a slot is
  `some v` while an object of value `v` is alive in it (between
  `std::construct_at` and `std::destroy_at`) and `none` otherwise.
* `std::uint8_t m_size` is a natural number kept below `256`: `m_size++` is
  `(m_size + 1) % 256` and `m_size--` is `(m_size + 255) % 256`.
* `assert(...)` is modelled as in a debug build: a failing assertion aborts.
* A C++ exception leaves the program running, so a result that propagates an
  exception carries the state the objects are left in.
* `while` / `for` loops take a fuel argument; running out of fuel is reported
  as `Res.timeout` and is never confused with a normal return.
* `destroyed` is a ghost trace: the slot indices handed to `std::destroy_at`,
  oldest first. No source-level decision reads it.
-/

namespace CobbleGuard

/-- The C++ exceptions the container can propagate: `std::out_of_range` from `at`,
and whatever the element constructor raises. -/
inductive Exn where
  | out_of_range
  | element_ctor
  deriving DecidableEq, Repr

/-- Outcome of running a piece of the container code on a state of type `σ`. -/
inductive Res (σ α : Type) where
  /-- Normal return with value `a`, leaving state `s`. -/
  | ok (a : α) (s : σ)
  /-- An exception propagates to the caller; the objects are left in state `s`. -/
  | thrown (e : Exn) (s : σ)
  /-- An `assert` failed. -/
  | abort
  /-- An object was read or destroyed outside its lifetime. -/
  | ub
  /-- The loop fuel ran out before the code returned. -/
  | timeout
  deriving DecidableEq, Repr

/-- Sequencing: run `k` on the value and state of a normal return; an exception
keeps propagating with its state re-embedded by `wrap`. -/
def Res.andThen {σ τ α β : Type} (r : Res σ α) (wrap : σ → τ)
    (k : α → σ → Res τ β) : Res τ β :=
  match r with
  | .ok a s => k a s
  | .thrown e s => .thrown e (wrap s)
  | .abort => .abort
  | .ub => .ub
  | .timeout => .timeout

/-- The state the objects are left in, when the code came back to its caller
(by return or by exception). -/
def Res.state? {σ α : Type} : Res σ α → Option σ
  | .ok _ s => some s
  | .thrown _ s => some s
  | _ => none

/-- Operations of the element type `T` the container relies on. `none` means the
constructor raises. -/
class Element (T : Type) where
  /-- The result of `T()`. -/
  default_construct : Option T
  /-- The result of `T(const T&)`. -/
  copy_construct : T → Option T
  /-- The result of `T(T&&)`: the value of the new object. -/
  move_construct : T → Option T
  /-- The value left in the source object by `T(T&&)`. -/
  moved_from : T → T

/-- Element types whose copy and move constructors never raise and reproduce
the value of their argument (as for `int`). -/
class ValueElement (T : Type) [Element T] : Prop where
  default_ok : ∃ d : T, Element.default_construct = some d
  copy_ok : ∀ v : T, Element.copy_construct v = some v
  move_ok : ∀ v : T, Element.move_construct v = some v

/-- The `int`-like element used for concrete runs. -/
instance : Element Nat where
  default_construct := some 0
  copy_construct := fun v => some v
  move_construct := fun v => some v
  moved_from := fun v => v

instance : ValueElement Nat where
  default_ok := ⟨0, rfl⟩
  copy_ok := fun _ => rfl
  move_ok := fun _ => rfl

instance : Element Throwing where
  default_construct := none
  copy_construct := fun _ => none
  move_construct := fun _ => none
  moved_from := fun v => v

/-- The object `static_vector<T, Capacity>`: its two data members and the ghost
destruction trace. -/
structure static_vector (T : Type) (Capacity : Nat) where
  m_data : List (Option T)
  m_size : Nat
  destroyed : List Nat
  deriving DecidableEq, Repr

namespace static_vector

variable {T : Type} {Capacity : Nat}

/-- The default constructor `static_vector() : m_size(0)`; the storage is left
without any object. -/
def default_ctor : static_vector T Capacity :=
  { m_data := List.replicate Capacity none, m_size := 0, destroyed := [] }

/-- Member `size()` returns `m_size`. -/
def size (s : static_vector T Capacity) : Nat := s.m_size

/-- Member `max_size()` returns `Capacity`. -/
def max_size (_s : static_vector T Capacity) : Nat := Capacity

/-- Member `capacity()` returns `Capacity`. -/
def capacity (_s : static_vector T Capacity) : Nat := Capacity

/-- Member `empty()` returns `size() == 0`. -/
def empty (s : static_vector T Capacity) : Bool := s.size == 0

/-- Slot `i` holds a live object. -/
def live (s : static_vector T Capacity) (i : Nat) : Bool :=
  match s.m_data[i]? with
  | some (some _) => true
  | _ => false

/-- Reading `data()[index]`: the value of the object in that slot. -/
def read (s : static_vector T Capacity) (index : Nat) :
    Res (static_vector T Capacity) T :=
  match s.m_data[index]? with
  | some (some v) => .ok v s
  | _ => .ub

/-- The checked accessor `at(index)`: throws when `index >= size()`, otherwise
yields `data()[index]`. -/
def «at» (s : static_vector T Capacity) (index : Nat) :
    Res (static_vector T Capacity) T :=
  if index ≥ s.size then .thrown .out_of_range s
  else s.read index

/-- The unchecked accessor `operator[](index)`: `assert(index < size())`, then
`data()[index]`. -/
def operator_index (s : static_vector T Capacity) (index : Nat) :
    Res (static_vector T Capacity) T :=
  if index < s.size then s.read index
  else .abort

/-- Member `emplace_back(args...)`: `assert(size() < capacity())`, then
`std::construct_at(data() + size(), args...)`, then `m_size++`; `ctor args` is
the outcome of `T(args...)`. The returned reference is modelled by the index of
the slot it designates. -/
def emplace_back {A : Type} (ctor : A → Option T) (args : A)
    (s : static_vector T Capacity) : Res (static_vector T Capacity) Nat :=
  if s.size < s.capacity then
    match ctor args with
    | none => .thrown .element_ctor s
    | some v =>
      .ok s.size
        { m_data := s.m_data.set s.size (some v)
          m_size := (s.m_size + 1) % 256
          destroyed := s.destroyed }
  else .abort

/-- Member `push_back(const T& value)`: `assert(size() < capacity())`, then
`emplace_back(value)`. -/
def push_back [Element T] (value : T) (s : static_vector T Capacity) :
    Res (static_vector T Capacity) Unit :=
  if s.size < s.capacity then
    (emplace_back Element.copy_construct value s).andThen id fun _ s1 => .ok () s1
  else .abort

/-- Member `push_back(T&& value)`: `assert(size() < capacity())`, then
`emplace_back(std::move(value))`. -/
def push_back_move [Element T] (value : T) (s : static_vector T Capacity) :
    Res (static_vector T Capacity) Unit :=
  if s.size < s.capacity then
    (emplace_back Element.move_construct value s).andThen id fun _ s1 => .ok () s1
  else .abort

/-- Member `pop_back()`: `assert(!empty())`, then
`std::destroy_at(data() + size() - 1)`, then `m_size--`. -/
def pop_back (s : static_vector T Capacity) : Res (static_vector T Capacity) Unit :=
  if !s.empty then
    match s.m_data[s.size - 1]? with
    | some (some _) =>
      .ok ()
        { m_data := s.m_data.set (s.size - 1) none
          m_size := (s.m_size + 255) % 256
          destroyed := s.destroyed ++ [s.size - 1] }
    | _ => .ub
  else .abort

/-- Member `clear()`: `while(!empty()) pop_back();`. -/
def clear : Nat → static_vector T Capacity → Res (static_vector T Capacity) Unit
  | 0, _ => .timeout
  | fuel + 1, s =>
    if !s.empty then (pop_back s).andThen id fun _ s1 => clear fuel s1
    else .ok () s

/-- First loop of both `resize` overloads: `while(m_size > count) pop_back();`. -/
def resize_shrink (count : Nat) :
    Nat → static_vector T Capacity → Res (static_vector T Capacity) Unit
  | 0, _ => .timeout
  | fuel + 1, s =>
    if s.m_size > count then (pop_back s).andThen id fun _ s1 => resize_shrink count fuel s1
    else .ok () s

/-- Second loop of `resize(count)`: `while(m_size < count) emplace_back();`. -/
def resize_grow [Element T] (count : Nat) :
    Nat → static_vector T Capacity → Res (static_vector T Capacity) Unit
  | 0, _ => .timeout
  | fuel + 1, s =>
    if s.m_size < count then
      (emplace_back (fun _ : Unit => Element.default_construct) () s).andThen id
        fun _ s1 => resize_grow count fuel s1
    else .ok () s

/-- Second loop of `resize(count, value)`: `while(m_size < count) push_back(value);`. -/
def resize_grow_value [Element T] (count : Nat) (value : T) :
    Nat → static_vector T Capacity → Res (static_vector T Capacity) Unit
  | 0, _ => .timeout
  | fuel + 1, s =>
    if s.m_size < count then
      (push_back value s).andThen id fun _ s1 => resize_grow_value count value fuel s1
    else .ok () s

/-- Member `resize(count)`: `assert(count <= capacity())`, then the two loops. -/
def resize [Element T] (fuel : Nat) (count : Nat) (s : static_vector T Capacity) :
    Res (static_vector T Capacity) Unit :=
  if count ≤ s.capacity then
    (resize_shrink count fuel s).andThen id fun _ s1 => resize_grow count fuel s1
  else .abort

/-- Member `resize(count, value)`: `assert(count <= capacity())`, then the two
loops. -/
def resize_value [Element T] (fuel : Nat) (count : Nat) (value : T)
    (s : static_vector T Capacity) : Res (static_vector T Capacity) Unit :=
  if count ≤ s.capacity then
    (resize_shrink count fuel s).andThen id fun _ s1 => resize_grow_value count value fuel s1
  else .abort

/-- Writing through the reference `operator[](index)` yields: `(*this)[index] = value`. -/
def assign_index (s : static_vector T Capacity) (index : Nat) (value : T) :
    Res (static_vector T Capacity) Unit :=
  (s.operator_index index).andThen id fun _ s1 =>
    .ok () { s1 with m_data := s1.m_data.set index (some value) }

/-- The transfer loop of the copy constructor and of copy assignment, from
index `i` on: `for(; i < other.size(); i++) push_back(other[i]);`. The state
is the pair `(*this, other)`. -/
def copy_loop [Element T] :
    Nat → Nat → static_vector T Capacity × static_vector T Capacity →
      Res (static_vector T Capacity × static_vector T Capacity) Unit
  | 0, _, _ => .timeout
  | fuel + 1, i, (this, other) =>
    if i < other.size then
      (other.operator_index i).andThen (fun o => (this, o)) fun v other1 =>
        (push_back v this).andThen (fun t => (t, other1)) fun _ this1 =>
          copy_loop fuel (i + 1) (this1, other1)
    else .ok () (this, other)

/-- The transfer loop of the move constructor and of move assignment, from
index `i` on: `for(; i < other.size(); i++) push_back(std::move(other[i]));`.
The moved-from object stays alive in its slot of `other`. -/
def move_loop [Element T] :
    Nat → Nat → static_vector T Capacity × static_vector T Capacity →
      Res (static_vector T Capacity × static_vector T Capacity) Unit
  | 0, _, _ => .timeout
  | fuel + 1, i, (this, other) =>
    if i < other.size then
      (other.operator_index i).andThen (fun o => (this, o)) fun v other1 =>
        (push_back_move v this).andThen (fun t => (t, other1)) fun _ this1 =>
          move_loop fuel (i + 1)
            (this1, { other1 with m_data := other1.m_data.set i (some (Element.moved_from v)) })
    else .ok () (this, other)

/-- The copy constructor `static_vector(const static_vector& other) : m_size(0)`.
The result state is `(*this, other)`. -/
def copy_ctor [Element T] (fuel : Nat) (other : static_vector T Capacity) :
    Res (static_vector T Capacity × static_vector T Capacity) Unit :=
  copy_loop fuel 0 (default_ctor, other)

/-- The move constructor `static_vector(static_vector&& other) : m_size(0)`: the
transfer loop, then `other.clear()`. -/
def move_ctor [Element T] (fuel : Nat) (other : static_vector T Capacity) :
    Res (static_vector T Capacity × static_vector T Capacity) Unit :=
  (move_loop fuel 0 (default_ctor, other)).andThen id fun _ st =>
    (clear fuel st.2).andThen (fun o => (st.1, o)) fun _ other1 => .ok () (st.1, other1)

/-- Copy assignment `operator=(const static_vector& other)`. `aliased` is the
outcome of `this == std::addressof(other)`; the state is `(*this, other)`. -/
def copy_assign [Element T] (fuel : Nat) (aliased : Bool)
    (st : static_vector T Capacity × static_vector T Capacity) :
    Res (static_vector T Capacity × static_vector T Capacity) Unit :=
  if !aliased then
    (clear fuel st.1).andThen (fun t => (t, st.2)) fun _ this1 =>
      copy_loop fuel 0 (this1, st.2)
  else .ok () st

/-- Move assignment `operator=(static_vector&& other)`. `aliased` is the outcome
of `this == std::addressof(other)`; the state is `(*this, other)`. -/
def move_assign [Element T] (fuel : Nat) (aliased : Bool)
    (st : static_vector T Capacity × static_vector T Capacity) :
    Res (static_vector T Capacity × static_vector T Capacity) Unit :=
  if !aliased then
    (clear fuel st.1).andThen (fun t => (t, st.2)) fun _ this1 =>
      (move_loop fuel 0 (this1, st.2)).andThen id fun _ st1 =>
        (clear fuel st1.2).andThen (fun o => (st1.1, o)) fun _ other1 =>
          .ok () (st1.1, other1)
  else .ok () st

/-- A run of `push_back` calls, one per value, first value first. It stops at
the first call that does not return normally. -/
def push_all [Element T] :
    List T → static_vector T Capacity → Res (static_vector T Capacity) Unit
  | [], s => .ok () s
  | v :: vs, s => (push_back v s).andThen id fun _ s1 => push_all vs s1

/-- A run of `n` calls of `pop_back`. -/
def pop_n : Nat → static_vector T Capacity → Res (static_vector T Capacity) Unit
  | 0, s => .ok () s
  | n + 1, s => (pop_back s).andThen id fun _ s1 => pop_n n s1

/-- States reachable from a default-constructed container by calls of the
modifiers made with their preconditions satisfied. A call contributes the state
it leaves behind, whether it returns or propagates an exception. -/
inductive Reachable [Element T] : static_vector T Capacity → Prop where
  | init : Reachable default_ctor
  | push_back (s s1 : static_vector T Capacity) (value : T) :
      Reachable s → s.size < s.capacity → (push_back value s).state? = some s1 →
      Reachable s1
  | push_back_move (s s1 : static_vector T Capacity) (value : T) :
      Reachable s → s.size < s.capacity → (push_back_move value s).state? = some s1 →
      Reachable s1
  | emplace_back {A : Type} (ctor : A → Option T) (args : A)
      (s s1 : static_vector T Capacity) :
      Reachable s → s.size < s.capacity → (emplace_back ctor args s).state? = some s1 →
      Reachable s1
  | pop_back (s s1 : static_vector T Capacity) :
      Reachable s → s.size > 0 → (pop_back s).state? = some s1 → Reachable s1
  | resize (fuel count : Nat) (s s1 : static_vector T Capacity) :
      Reachable s → count ≤ s.capacity → (resize fuel count s).state? = some s1 →
      Reachable s1
  | resize_value (fuel count : Nat) (value : T) (s s1 : static_vector T Capacity) :
      Reachable s → count ≤ s.capacity →
      (resize_value fuel count value s).state? = some s1 → Reachable s1
  | clear (fuel : Nat) (s s1 : static_vector T Capacity) :
      Reachable s → (clear fuel s).state? = some s1 → Reachable s1

/-- The statement `dst[index] = value` in a program holding the two containers
`(dst, src)`. -/
def assign_first (st : static_vector T Capacity × static_vector T Capacity)
    (index : Nat) (value : T) :
    Res (static_vector T Capacity × static_vector T Capacity) Unit :=
  (st.1.assign_index index value).andThen (fun t => (t, st.2)) fun _ t => .ok () (t, st.2)

/-- The statement `src[index] = value` in a program holding the two containers
`(dst, src)`. -/
def assign_second (st : static_vector T Capacity × static_vector T Capacity)
    (index : Nat) (value : T) :
    Res (static_vector T Capacity × static_vector T Capacity) Unit :=
  (st.2.assign_index index value).andThen (fun o => (st.1, o)) fun _ o => .ok () (st.1, o)

/-- The destructor `~static_vector()`: its body is `clear();`. -/
def dtor (fuel : Nat) (s : static_vector T Capacity) : Res (static_vector T Capacity) Unit :=
  clear fuel s

/-- Member `data()` returns `m_data`, the address of slot 0. Pointers into the
storage are modelled by their slot offset from `m_data`. -/
def data (_s : static_vector T Capacity) : Nat := 0

/-- Members `begin()` / `cbegin()` return `data()`. -/
def begin (s : static_vector T Capacity) : Nat := s.data

/-- Members `end()` / `cend()` return `data() + size()`. -/
def «end» (s : static_vector T Capacity) : Nat := s.data + s.size

/-- The standard `std::reverse_iterator<T*>`: it stores a pointer `base`,
dereferences to `*(base - 1)`, and `++` decrements `base`. -/
structure reverse_iterator where
  base : Nat
  deriving DecidableEq, Repr

/-- Members `rbegin()` / `crbegin()` return `std::make_reverse_iterator(end())`. -/
def rbegin (s : static_vector T Capacity) : reverse_iterator := ⟨s.end⟩

/-- Members `rend()` / `crend()` return `std::make_reverse_iterator(begin())`. -/
def rend (s : static_vector T Capacity) : reverse_iterator := ⟨s.begin⟩

/-- The slots visited by the standard traversal of a pointer range,
`for(it = first; it != last; ++it) visit(*it);`, in visiting order; `none`
when the fuel runs out first. -/
def visit_forward : Nat → Nat → Nat → Option (List Nat)
  | 0, _, _ => none
  | fuel + 1, it, last =>
    if it ≠ last then (visit_forward fuel (it + 1) last).map fun rest => it :: rest
    else some []

/-- The slots visited by the same traversal over reverse iterators: `*it` is
the slot `base - 1` and `++it` decrements `base`. -/
def visit_reverse : Nat → reverse_iterator → reverse_iterator → Option (List Nat)
  | 0, _, _ => none
  | fuel + 1, it, last =>
    if it.base ≠ last.base then
      (visit_reverse fuel ⟨it.base - 1⟩ last).map fun rest => (it.base - 1) :: rest
    else some []

/-! ## Concrete states used in the checks -/

/-- A container of capacity 256 holding 255 elements `7`. -/
def filled_255 : static_vector Nat 256 :=
  { m_data := List.replicate 255 (some 7) ++ [none], m_size := 255, destroyed := [] }

/-- The state 256 calls of `push_back(7)` leave a container of capacity 256 in:
every slot holds a live object and the counter has wrapped to zero. -/
def wrapped_256 : static_vector Nat 256 :=
  { m_data := List.replicate 256 (some 7), m_size := 0, destroyed := [] }

/-- A container of capacity 4 holding `[1, 2, 3]`. -/
def abc_4 : static_vector Nat 4 :=
  { m_data := [some 1, some 2, some 3, none], m_size := 3, destroyed := [] }

/-- A container of capacity 4 holding `[8, 9]`. -/
def xy_4 : static_vector Nat 4 :=
  { m_data := [some 8, some 9, none, none], m_size := 2, destroyed := [] }

/-- A container of capacity 4 holding `[1, 2, 3, 4]`. -/
def abcd_4 : static_vector Nat 4 :=
  { m_data := [some 1, some 2, some 3, some 4], m_size := 4, destroyed := [] }

/-- A container of capacity 256 holding `[1, 2, 3]`. -/
def abc_256 : static_vector Nat 256 :=
  { m_data := [some 1, some 2, some 3] ++ List.replicate 253 none, m_size := 3,
    destroyed := [] }

/-- The state 257 calls of `push_back(7)` leave a container of capacity 256 in:
every slot holds a live object and the counter stands at one. -/
def wrapped_257 : static_vector Nat 256 :=
  { m_data := List.replicate 256 (some 7), m_size := 1, destroyed := [] }

/-- The representation invariant every reachable state satisfies: the storage
has `Capacity` slots, the counter fits its eight bits and does not exceed
`Capacity`, and every slot below the counter holds a live object. -/
structure Inv (s : static_vector T Capacity) : Prop where
  len : s.m_data.length = Capacity
  u8 : s.m_size < 256
  le_cap : s.m_size ≤ Capacity
  live_below : ∀ i, i < s.m_size → s.live i = true

/-- The data-model invariant of the specification: on top of `Inv`, no slot at
or above the counter holds a live object. -/
structure Exact (s : static_vector T Capacity) : Prop where
  inv : Inv s
  dead_above : ∀ i, s.m_size ≤ i → s.live i = false

end static_vector

/-! ## Sequencing lemmas -/

theorem Res.andThen_state {σ α β : Type} (r : Res σ α) (k : α → σ → Res σ β) (s2 : σ)
    (h : (r.andThen id k).state? = some s2) :
    (∃ e, r = .thrown e s2) ∨ ∃ a s1, r = .ok a s1 ∧ (k a s1).state? = some s2 := by
  cases r with
  | ok a s => exact Or.inr ⟨a, s, rfl, h⟩
  | thrown e s =>
    simp only [Res.andThen, Res.state?, id, Option.some.injEq] at h
    exact Or.inl ⟨e, by rw [h]⟩
  | abort => simp [Res.andThen, Res.state?] at h
  | ub => simp [Res.andThen, Res.state?] at h
  | timeout => simp [Res.andThen, Res.state?] at h

namespace static_vector

variable {T : Type} {Capacity : Nat}

/-! ## Single calls -/

theorem live_iff (s : static_vector T Capacity) (i : Nat) :
    s.live i = true ↔ ∃ v, s.m_data[i]? = some (some v) := by
  unfold live
  split
  · next v h => simp [h]
  · next h =>
    constructor
    · intro h1; cases h1
    · rintro ⟨v, hv⟩; exact absurd hv (h v)

theorem inv_default_ctor : Inv (default_ctor : static_vector T Capacity) where
  len := by simp [default_ctor]
  u8 := by simp [default_ctor]
  le_cap := by simp [default_ctor]
  live_below := by intro i hi; simp [default_ctor] at hi

theorem exact_default_ctor : Exact (default_ctor : static_vector T Capacity) where
  inv := inv_default_ctor
  dead_above := by
    intro i _
    simp only [live, default_ctor, List.getElem?_replicate]
    split <;> simp_all

/-- With the precondition met and a constructor that succeeds, `emplace_back`
returns the old size and the state with the new object in that slot. -/
theorem emplace_back_ok {A : Type} (ctor : A → Option T) (args : A) (v : T)
    (s : static_vector T Capacity) (hlt : s.m_size < Capacity) (hc : ctor args = some v) :
    emplace_back ctor args s =
      .ok s.m_size { m_data := s.m_data.set s.m_size (some v)
                     m_size := (s.m_size + 1) % 256
                     destroyed := s.destroyed } := by
  simp [emplace_back, size, capacity, hlt, hc]

theorem emplace_back_throw {A : Type} (ctor : A → Option T) (args : A)
    (s : static_vector T Capacity) (hlt : s.m_size < Capacity) (hc : ctor args = none) :
    emplace_back ctor args s = .thrown .element_ctor s := by
  simp [emplace_back, size, capacity, hlt, hc]

theorem emplace_back_state {A : Type} (ctor : A → Option T) (args : A)
    (s s1 : static_vector T Capacity) (h : (emplace_back ctor args s).state? = some s1) :
    s.m_size < Capacity ∧
      (s1 = s ∨ ∃ v, s1 = { m_data := s.m_data.set s.m_size (some v)
                            m_size := (s.m_size + 1) % 256
                            destroyed := s.destroyed }) := by
  by_cases hlt : s.m_size < Capacity
  · refine ⟨hlt, ?_⟩
    cases hc : ctor args with
    | none =>
      rw [emplace_back_throw ctor args s hlt hc] at h
      simp only [Res.state?, Option.some.injEq] at h
      exact Or.inl h.symm
    | some v =>
      rw [emplace_back_ok ctor args v s hlt hc] at h
      simp only [Res.state?, Option.some.injEq] at h
      exact Or.inr ⟨v, h.symm⟩
  · simp [emplace_back, size, capacity, hlt, Res.state?] at h

theorem push_back_eq [Element T] (value : T) (s : static_vector T Capacity) :
    push_back value s =
      (emplace_back Element.copy_construct value s).andThen id fun _ s1 => .ok () s1 := by
  unfold push_back
  split
  · rfl
  · next h => simp [emplace_back, h, Res.andThen]

theorem push_back_move_eq [Element T] (value : T) (s : static_vector T Capacity) :
    push_back_move value s =
      (emplace_back Element.move_construct value s).andThen id fun _ s1 => .ok () s1 := by
  unfold push_back_move
  split
  · rfl
  · next h => simp [emplace_back, h, Res.andThen]

theorem push_back_state_emplace [Element T] (value : T) (s s1 : static_vector T Capacity)
    (h : (push_back value s).state? = some s1) :
    (emplace_back Element.copy_construct value s).state? = some s1 := by
  rw [push_back_eq] at h
  cases hr : emplace_back Element.copy_construct value s <;>
    simp_all [Res.andThen, Res.state?]

theorem push_back_move_state_emplace [Element T] (value : T) (s s1 : static_vector T Capacity)
    (h : (push_back_move value s).state? = some s1) :
    (emplace_back Element.move_construct value s).state? = some s1 := by
  rw [push_back_move_eq] at h
  cases hr : emplace_back Element.move_construct value s <;>
    simp_all [Res.andThen, Res.state?]

/-- On a state with a live last element `pop_back` returns, with that slot
emptied and the counter one lower. -/
theorem pop_back_ok (s : static_vector T Capacity) (v : T) (hpos : 0 < s.m_size)
    (hv : s.m_data[s.m_size - 1]? = some (some v)) :
    pop_back s =
      .ok () { m_data := s.m_data.set (s.m_size - 1) none
               m_size := (s.m_size + 255) % 256
               destroyed := s.destroyed ++ [s.m_size - 1] } := by
  have h0 : s.m_size ≠ 0 := by omega
  simp [pop_back, empty, size, h0, hv]

theorem pop_back_state (s s1 : static_vector T Capacity)
    (h : (pop_back s).state? = some s1) :
    0 < s.m_size ∧ s1 = { m_data := s.m_data.set (s.m_size - 1) none
                          m_size := (s.m_size + 255) % 256
                          destroyed := s.destroyed ++ [s.m_size - 1] } := by
  by_cases h0 : s.m_size = 0
  · simp [pop_back, empty, size, h0, Res.state?] at h
  · have hpos : 0 < s.m_size := by omega
    refine ⟨hpos, ?_⟩
    cases hv : s.m_data[s.m_size - 1]? with
    | none => simp [pop_back, empty, size, h0, hv, Res.state?] at h
    | some o =>
      cases o with
      | none => simp [pop_back, empty, size, h0, hv, Res.state?] at h
      | some v =>
        rw [pop_back_ok s v hpos hv] at h
        simp only [Res.state?, Option.some.injEq] at h
        exact h.symm

/-! ## Preservation of the representation invariant -/

theorem live_set_self (s : static_vector T Capacity) (i : Nat) (v : T)
    (hi : i < s.m_data.length) (n : Nat) (d : List Nat) :
    live ({ m_data := s.m_data.set i (some v), m_size := n, destroyed := d } :
      static_vector T Capacity) i = true := by
  simp [live, List.getElem?_set_self hi]

theorem live_set_ne (s : static_vector T Capacity) (i j : Nat) (o : Option T)
    (hij : i ≠ j) (n : Nat) (d : List Nat) :
    live ({ m_data := s.m_data.set i o, m_size := n, destroyed := d } :
      static_vector T Capacity) j = s.live j := by
  simp [live, List.getElem?_set_ne hij]

theorem inv_emplaced (s : static_vector T Capacity) (v : T) (hs : Inv s)
    (hlt : s.m_size < Capacity) :
    Inv ({ m_data := s.m_data.set s.m_size (some v)
           m_size := (s.m_size + 1) % 256
           destroyed := s.destroyed } : static_vector T Capacity) where
  len := by simp [hs.len]
  u8 := Nat.mod_lt _ (by decide)
  le_cap := by
    have := Nat.mod_le (s.m_size + 1) 256
    show (s.m_size + 1) % 256 ≤ Capacity
    omega
  live_below := by
    intro i hi
    have hi1 : i < (s.m_size + 1) % 256 := hi
    have hle := Nat.mod_le (s.m_size + 1) 256
    by_cases hEq : s.m_size = i
    · subst hEq
      exact live_set_self s s.m_size v (by rw [hs.len]; exact hlt) _ _
    · rw [live_set_ne s s.m_size i (some v) hEq]
      exact hs.live_below i (by omega)

theorem inv_popped (s : static_vector T Capacity) (hs : Inv s) (hpos : 0 < s.m_size) :
    Inv ({ m_data := s.m_data.set (s.m_size - 1) none
           m_size := (s.m_size + 255) % 256
           destroyed := s.destroyed ++ [s.m_size - 1] } : static_vector T Capacity) where
  len := by simp [hs.len]
  u8 := Nat.mod_lt _ (by decide)
  le_cap := by
    have := hs.u8
    have := hs.le_cap
    show (s.m_size + 255) % 256 ≤ Capacity
    omega
  live_below := by
    intro i hi
    have hi1 : i < (s.m_size + 255) % 256 := hi
    have := hs.u8
    rw [live_set_ne s (s.m_size - 1) i none (by omega)]
    exact hs.live_below i (by omega)

theorem inv_emplace_back {A : Type} (ctor : A → Option T) (args : A)
    (s s1 : static_vector T Capacity) (hs : Inv s)
    (h : (emplace_back ctor args s).state? = some s1) : Inv s1 := by
  obtain ⟨hlt, h1 | ⟨v, h1⟩⟩ := emplace_back_state ctor args s s1 h
  · rw [h1]; exact hs
  · rw [h1]; exact inv_emplaced s v hs hlt

theorem inv_push_back [Element T] (value : T) (s s1 : static_vector T Capacity)
    (hs : Inv s) (h : (push_back value s).state? = some s1) : Inv s1 :=
  inv_emplace_back _ _ s s1 hs (push_back_state_emplace value s s1 h)

theorem inv_push_back_move [Element T] (value : T) (s s1 : static_vector T Capacity)
    (hs : Inv s) (h : (push_back_move value s).state? = some s1) : Inv s1 :=
  inv_emplace_back _ _ s s1 hs (push_back_move_state_emplace value s s1 h)

theorem inv_pop_back (s s1 : static_vector T Capacity) (hs : Inv s)
    (h : (pop_back s).state? = some s1) : Inv s1 := by
  obtain ⟨hpos, h1⟩ := pop_back_state s s1 h
  rw [h1]; exact inv_popped s hs hpos

theorem pop_back_not_thrown (s s1 : static_vector T Capacity) (e : Exn) :
    pop_back s ≠ .thrown e s1 := by
  unfold pop_back
  split
  · split <;> simp
  · simp

theorem inv_clear (fuel : Nat) (s s1 : static_vector T Capacity) (hs : Inv s)
    (h : (clear fuel s).state? = some s1) : Inv s1 := by
  induction fuel generalizing s with
  | zero => simp [clear, Res.state?] at h
  | succ fuel ih =>
    unfold clear at h
    split at h
    · rcases Res.andThen_state _ _ _ h with ⟨e, he⟩ | ⟨a, s2, h2, h3⟩
      · exact absurd he (pop_back_not_thrown s s1 e)
      · exact ih s2 (inv_pop_back s s2 hs (by rw [h2]; rfl)) h3
    · simp only [Res.state?, Option.some.injEq] at h
      rw [← h]; exact hs

theorem inv_resize_shrink (count fuel : Nat) (s s1 : static_vector T Capacity) (hs : Inv s)
    (h : (resize_shrink count fuel s).state? = some s1) : Inv s1 := by
  induction fuel generalizing s with
  | zero => simp [resize_shrink, Res.state?] at h
  | succ fuel ih =>
    unfold resize_shrink at h
    split at h
    · rcases Res.andThen_state _ _ _ h with ⟨e, he⟩ | ⟨a, s2, h2, h3⟩
      · exact absurd he (pop_back_not_thrown s s1 e)
      · exact ih s2 (inv_pop_back s s2 hs (by rw [h2]; rfl)) h3
    · simp only [Res.state?, Option.some.injEq] at h
      rw [← h]; exact hs

theorem inv_resize_grow [Element T] (count fuel : Nat) (s s1 : static_vector T Capacity)
    (hs : Inv s) (h : (resize_grow count fuel s).state? = some s1) : Inv s1 := by
  induction fuel generalizing s with
  | zero => simp [resize_grow, Res.state?] at h
  | succ fuel ih =>
    unfold resize_grow at h
    split at h
    · rcases Res.andThen_state _ _ _ h with ⟨e, he⟩ | ⟨a, s2, h2, h3⟩
      · exact inv_emplace_back _ _ s s1 hs (by rw [he]; rfl)
      · exact ih s2 (inv_emplace_back _ _ s s2 hs (by rw [h2]; rfl)) h3
    · simp only [Res.state?, Option.some.injEq] at h
      rw [← h]; exact hs

theorem inv_resize_grow_value [Element T] (count : Nat) (value : T) (fuel : Nat)
    (s s1 : static_vector T Capacity) (hs : Inv s)
    (h : (resize_grow_value count value fuel s).state? = some s1) : Inv s1 := by
  induction fuel generalizing s with
  | zero => simp [resize_grow_value, Res.state?] at h
  | succ fuel ih =>
    unfold resize_grow_value at h
    split at h
    · rcases Res.andThen_state _ _ _ h with ⟨e, he⟩ | ⟨a, s2, h2, h3⟩
      · exact inv_push_back value s s1 hs (by rw [he]; rfl)
      · exact ih s2 (inv_push_back value s s2 hs (by rw [h2]; rfl)) h3
    · simp only [Res.state?, Option.some.injEq] at h
      rw [← h]; exact hs

theorem resize_shrink_not_thrown (count fuel : Nat) (s s1 : static_vector T Capacity)
    (e : Exn) : resize_shrink count fuel s ≠ .thrown e s1 := by
  induction fuel generalizing s with
  | zero => simp [resize_shrink]
  | succ fuel ih =>
    unfold resize_shrink
    split
    · cases hp : pop_back s with
      | ok a s2 => simpa [Res.andThen] using ih s2
      | thrown e2 s2 => exact absurd hp (pop_back_not_thrown s s2 e2)
      | abort => simp [Res.andThen]
      | ub => simp [Res.andThen]
      | timeout => simp [Res.andThen]
    · simp

theorem inv_resize [Element T] (fuel count : Nat) (s s1 : static_vector T Capacity)
    (hs : Inv s) (h : (resize fuel count s).state? = some s1) : Inv s1 := by
  unfold resize at h
  split at h
  · rcases Res.andThen_state _ _ _ h with ⟨e, he⟩ | ⟨a, s2, h2, h3⟩
    · exact absurd he (resize_shrink_not_thrown count fuel s s1 e)
    · exact inv_resize_grow count fuel s2 s1
        (inv_resize_shrink count fuel s s2 hs (by rw [h2]; rfl)) h3
  · simp [Res.state?] at h

theorem inv_resize_value [Element T] (fuel count : Nat) (value : T)
    (s s1 : static_vector T Capacity) (hs : Inv s)
    (h : (resize_value fuel count value s).state? = some s1) : Inv s1 := by
  unfold resize_value at h
  split at h
  · rcases Res.andThen_state _ _ _ h with ⟨e, he⟩ | ⟨a, s2, h2, h3⟩
    · exact absurd he (resize_shrink_not_thrown count fuel s s1 e)
    · exact inv_resize_grow_value count value fuel s2 s1
        (inv_resize_shrink count fuel s s2 hs (by rw [h2]; rfl)) h3
  · simp [Res.state?] at h

/-- Every reachable state satisfies the representation invariant. -/
theorem Reachable.inv [Element T] {s : static_vector T Capacity} (h : Reachable s) :
    Inv s := by
  induction h with
  | init => exact inv_default_ctor
  | push_back s s1 value _ _ h ih => exact inv_push_back value s s1 ih h
  | push_back_move s s1 value _ _ h ih => exact inv_push_back_move value s s1 ih h
  | emplace_back ctor args s s1 _ _ h ih => exact inv_emplace_back ctor args s s1 ih h
  | pop_back s s1 _ _ h ih => exact inv_pop_back s s1 ih h
  | resize fuel count s s1 _ _ h ih => exact inv_resize fuel count s s1 ih h
  | resize_value fuel count value s s1 _ _ h ih =>
    exact inv_resize_value fuel count value s s1 ih h
  | clear fuel s s1 _ h ih => exact inv_clear fuel s s1 ih h

/-! ## Runs of calls -/

theorem Reachable.push_all [Element T] (vs : List T) (s s1 : static_vector T Capacity)
    (hs : Reachable s) (h : static_vector.push_all vs s = .ok () s1) : Reachable s1 := by
  induction vs generalizing s with
  | nil =>
    simp only [static_vector.push_all, Res.ok.injEq, true_and] at h
    rw [← h]; exact hs
  | cons v vs ih =>
    unfold static_vector.push_all at h
    cases hp : static_vector.push_back v s with
    | ok a s2 =>
      rw [hp] at h
      have hpre : s.size < s.capacity := by
        by_contra hn
        simp [static_vector.push_back, hn] at hp
      exact ih s2 (Reachable.push_back s s2 v hs hpre (by rw [hp]; rfl)) h
    | thrown e s2 => rw [hp] at h; simp [Res.andThen] at h
    | abort => rw [hp] at h; simp [Res.andThen] at h
    | ub => rw [hp] at h; simp [Res.andThen] at h
    | timeout => rw [hp] at h; simp [Res.andThen] at h

set_option maxRecDepth 100000 in
/-- Evaluation: 255 pushes on a fresh container of capacity 256. -/
theorem push_all_255 :
    push_all (List.replicate 255 7) (default_ctor : static_vector Nat 256) =
      .ok () filled_255 := by
  rfl

set_option maxRecDepth 100000 in
/-- Evaluation: 256 pushes on a fresh container of capacity 256. -/
theorem push_all_256 :
    push_all (List.replicate 256 7) (default_ctor : static_vector Nat 256) =
      .ok () wrapped_256 := by
  rfl

theorem reachable_filled_255 : Reachable filled_255 :=
  Reachable.push_all _ _ _ Reachable.init push_all_255

theorem reachable_wrapped_256 : Reachable wrapped_256 :=
  Reachable.push_all _ _ _ Reachable.init push_all_256

theorem reachable_abc_4 : Reachable abc_4 :=
  Reachable.push_all [1, 2, 3] default_ctor abc_4 Reachable.init (by rfl)

/-- With `Capacity = 256` the grow loop of `resize(256)` never leaves: the
counter stays below 256 whatever happens. -/
theorem resize_grow_256_timeout (fuel : Nat) (s : static_vector Nat 256)
    (hs : s.m_size < 256) : resize_grow 256 fuel s = .timeout := by
  induction fuel generalizing s with
  | zero => rfl
  | succ fuel ih =>
    unfold resize_grow
    rw [if_pos hs, emplace_back_ok _ () 0 s hs rfl]
    exact ih _ (Nat.mod_lt _ (by decide))

theorem resize_grow_value_256_timeout (value : Nat) (fuel : Nat)
    (s : static_vector Nat 256) (hs : s.m_size < 256) :
    resize_grow_value 256 value fuel s = .timeout := by
  induction fuel generalizing s with
  | zero => rfl
  | succ fuel ih =>
    unfold resize_grow_value
    rw [if_pos hs, push_back_eq, emplace_back_ok Element.copy_construct value value s hs rfl]
    exact ih _ (Nat.mod_lt _ (by decide))

/-! ## The loops of `clear` and of the copy and move operations -/

theorem push_back_ok [Element T] [ValueElement T] (value : T)
    (s : static_vector T Capacity) (hlt : s.m_size < Capacity) :
    push_back value s =
      .ok () { m_data := s.m_data.set s.m_size (some value)
               m_size := (s.m_size + 1) % 256
               destroyed := s.destroyed } := by
  rw [push_back_eq, emplace_back_ok _ value value s hlt (ValueElement.copy_ok value)]
  rfl

theorem push_back_move_ok [Element T] [ValueElement T] (value : T)
    (s : static_vector T Capacity) (hlt : s.m_size < Capacity) :
    push_back_move value s =
      .ok () { m_data := s.m_data.set s.m_size (some value)
               m_size := (s.m_size + 1) % 256
               destroyed := s.destroyed } := by
  rw [push_back_move_eq, emplace_back_ok _ value value s hlt (ValueElement.move_ok value)]
  rfl

theorem operator_index_ok (s : static_vector T Capacity) (i : Nat) (v : T)
    (hi : i < s.m_size) (hv : s.m_data[i]? = some (some v)) :
    s.operator_index i = .ok v s := by
  simp [operator_index, size, hi, read, hv]

/-- On a state satisfying the invariant, `clear` returns once it has more fuel
than elements; it empties the slots below the old size, back to front, and
touches nothing else. -/
theorem clear_ok (fuel : Nat) (s : static_vector T Capacity) (hs : Inv s)
    (hfuel : s.m_size < fuel) :
    ∃ s1, clear fuel s = .ok () s1 ∧ s1.m_size = 0 ∧
      s1.m_data.length = s.m_data.length ∧
      (∀ j, j < s.m_size → s1.live j = false) ∧
      (∀ j, s.m_size ≤ j → s1.m_data[j]? = s.m_data[j]?) ∧
      s1.destroyed = s.destroyed ++ (List.range s.m_size).reverse := by
  induction fuel generalizing s with
  | zero => omega
  | succ fuel ih =>
    by_cases h0 : s.m_size = 0
    · refine ⟨s, ?_, h0, rfl, ?_, fun _ _ => rfl, ?_⟩
      · simp [clear, empty, size, h0]
      · intro j hj; omega
      · simp [h0]
    · have hpos : 0 < s.m_size := by omega
      have hu8 := hs.u8
      obtain ⟨v, hv⟩ := (live_iff s (s.m_size - 1)).1 (hs.live_below _ (by omega))
      have hm : (s.m_size + 255) % 256 = s.m_size - 1 := by omega
      have hlen : s.m_size - 1 < s.m_data.length := by
        by_contra hn
        rw [List.getElem?_eq_none (by omega)] at hv
        cases hv
      obtain ⟨s1, h1, hsz, hl, hdead, hkeep, hd⟩ :=
        ih _ (inv_popped s hs hpos) (by show (s.m_size + 255) % 256 < fuel; omega)
      refine ⟨s1, ?_, hsz, ?_, ?_, ?_, ?_⟩
      · have hc : clear (fuel + 1) s =
            (pop_back s).andThen id fun _ s2 => clear fuel s2 := by
          simp [clear, empty, size, h0]
        rw [hc, pop_back_ok s v hpos hv]
        exact h1
      · rw [hl]; simp
      · intro j hj
        by_cases hj1 : j < s.m_size - 1
        · exact hdead j (by show j < (s.m_size + 255) % 256; omega)
        · have hje : j = s.m_size - 1 := by omega
          have hk := hkeep j (by show (s.m_size + 255) % 256 ≤ j; omega)
          simp only [hje, List.getElem?_set_self hlen] at hk
          subst hje
          simp [live, hk]
      · intro j hj
        have hk := hkeep j (by show (s.m_size + 255) % 256 ≤ j; omega)
        rw [hk]
        exact List.getElem?_set_ne (by omega)
      · rw [hd]
        show (s.destroyed ++ [s.m_size - 1]) ++ (List.range ((s.m_size + 255) % 256)).reverse = _
        rw [hm]
        obtain ⟨k, hk⟩ : ∃ k, s.m_size = k + 1 := ⟨s.m_size - 1, by omega⟩
        rw [hk, List.range_succ]
        simp

/-- The copy loop started at index `i` on a destination of size `i` returns,
leaves the source untouched, and fills the destination slots `i ..
other.size() - 1` with the source elements. -/
theorem copy_loop_ok [Element T] [ValueElement T] (fuel i : Nat)
    (this other : static_vector T Capacity) (hother : Inv other)
    (hlen : this.m_data.length = Capacity) (hsz : this.m_size = i)
    (hi : i ≤ other.m_size) (hfuel : other.m_size - i < fuel) :
    ∃ this1, copy_loop fuel i (this, other) = .ok () (this1, other) ∧
      this1.m_size = other.m_size ∧ this1.m_data.length = Capacity ∧
      this1.destroyed = this.destroyed ∧
      (∀ j, i ≤ j → j < other.m_size → this1.m_data[j]? = other.m_data[j]?) ∧
      (∀ j, j < i ∨ other.m_size ≤ j → this1.m_data[j]? = this.m_data[j]?) := by
  induction fuel generalizing i this with
  | zero => omega
  | succ fuel ih =>
    by_cases h : i < other.m_size
    · obtain ⟨v, hv⟩ := (live_iff other i).1 (hother.live_below i h)
      have hcap := hother.le_cap
      have hu8 := hother.u8
      have hlt : this.m_size < Capacity := by omega
      have hmod : (this.m_size + 1) % 256 = i + 1 := by omega
      obtain ⟨this1, h1, hs1, hl1, hd1, hfill, hkeep⟩ :=
        ih (i + 1)
          { m_data := this.m_data.set this.m_size (some v)
            m_size := (this.m_size + 1) % 256
            destroyed := this.destroyed }
          (by simp [hlen]) hmod (by omega) (by omega)
      refine ⟨this1, ?_, hs1, hl1, hd1, ?_, ?_⟩
      · have hc : copy_loop (fuel + 1) i (this, other) =
            (other.operator_index i).andThen (fun o => (this, o)) fun v other1 =>
              (push_back v this).andThen (fun t => (t, other1)) fun _ this1 =>
                copy_loop fuel (i + 1) (this1, other1) := by
          simp [copy_loop, size, h]
        rw [hc, operator_index_ok other i v h hv]
        simp only [Res.andThen]
        rw [push_back_ok v this hlt]
        exact h1
      · intro j hij hj
        by_cases hje : j = i
        · subst hje
          rw [hkeep j (Or.inl (by omega))]
          show (this.m_data.set this.m_size (some v))[j]? = _
          rw [hsz, List.getElem?_set_self (by omega), hv]
        · exact hfill j (by omega) hj
      · intro j hj
        rw [hkeep j (by omega)]
        show (this.m_data.set this.m_size (some v))[j]? = _
        exact List.getElem?_set_ne (by omega)
    · have hEq : i = other.m_size := by omega
      refine ⟨this, ?_, by omega, hlen, rfl, ?_, fun _ _ => rfl⟩
      · simp [copy_loop, size, h]
      · intro j hij hj; omega

theorem live_congr (s t : static_vector T Capacity) (j : Nat)
    (h : s.m_data[j]? = t.m_data[j]?) : s.live j = t.live j := by
  simp only [live, h]

theorem inv_overwrite (s : static_vector T Capacity) (hs : Inv s) (i : Nat) (x : T) :
    Inv ({ s with m_data := s.m_data.set i (some x) } : static_vector T Capacity) where
  len := by simp [hs.len]
  u8 := hs.u8
  le_cap := hs.le_cap
  live_below := by
    intro j hj
    have hj1 : j < s.m_size := hj
    have hcap := hs.le_cap
    by_cases hEq : i = j
    · subst hEq
      exact live_set_self s i x (by rw [hs.len]; omega) _ _
    · rw [live_set_ne s i j (some x) hEq]
      exact hs.live_below j hj1

/-- The move loop started at index `i` on a destination of size `i` returns and
fills the destination slots `i .. other.size() - 1` with the source elements;
the source keeps its size and its live objects. -/
theorem move_loop_ok [Element T] [ValueElement T] (fuel i : Nat)
    (this other : static_vector T Capacity) (hother : Inv other)
    (hlen : this.m_data.length = Capacity) (hsz : this.m_size = i)
    (hi : i ≤ other.m_size) (hfuel : other.m_size - i < fuel) :
    ∃ this1 other1, move_loop fuel i (this, other) = .ok () (this1, other1) ∧
      this1.m_size = other.m_size ∧ this1.m_data.length = Capacity ∧
      this1.destroyed = this.destroyed ∧
      (∀ j, i ≤ j → j < other.m_size → this1.m_data[j]? = other.m_data[j]?) ∧
      (∀ j, j < i ∨ other.m_size ≤ j → this1.m_data[j]? = this.m_data[j]?) ∧
      Inv other1 ∧ other1.m_size = other.m_size ∧ other1.destroyed = other.destroyed ∧
      (∀ j, j < i ∨ other.m_size ≤ j → other1.m_data[j]? = other.m_data[j]?) := by
  induction fuel generalizing i this other with
  | zero => omega
  | succ fuel ih =>
    by_cases h : i < other.m_size
    · obtain ⟨v, hv⟩ := (live_iff other i).1 (hother.live_below i h)
      have hcap := hother.le_cap
      have hu8 := hother.u8
      have hlt : this.m_size < Capacity := by omega
      have hmod : (this.m_size + 1) % 256 = i + 1 := by omega
      obtain ⟨this1, other1, h1, hs1, hl1, hd1, hfill, hkeep, hinv, hos, hod, hokeep⟩ :=
        ih (i + 1)
          { m_data := this.m_data.set this.m_size (some v)
            m_size := (this.m_size + 1) % 256
            destroyed := this.destroyed }
          { other with m_data := other.m_data.set i (some (Element.moved_from v)) }
          (inv_overwrite other hother i _)
          (by simp [hlen]) hmod (by show i + 1 ≤ other.m_size; omega)
          (by show other.m_size - (i + 1) < fuel; omega)
      refine ⟨this1, other1, ?_, hs1, hl1, hd1, ?_, ?_, hinv, hos, hod, ?_⟩
      · have hc : move_loop (fuel + 1) i (this, other) =
            (other.operator_index i).andThen (fun o => (this, o)) fun v other1 =>
              (push_back_move v this).andThen (fun t => (t, other1)) fun _ this1 =>
                move_loop fuel (i + 1)
                  (this1, { other1 with
                    m_data := other1.m_data.set i (some (Element.moved_from v)) }) := by
          simp [move_loop, size, h]
        rw [hc, operator_index_ok other i v h hv]
        simp only [Res.andThen]
        rw [push_back_move_ok v this hlt]
        exact h1
      · intro j hij hj
        by_cases hje : j = i
        · subst hje
          rw [hkeep j (Or.inl (by omega))]
          show (this.m_data.set this.m_size (some v))[j]? = _
          rw [hsz, List.getElem?_set_self (by omega), hv]
        · rw [hfill j (by omega) hj]
          show (other.m_data.set i (some (Element.moved_from v)))[j]? = _
          exact List.getElem?_set_ne (by omega)
      · intro j hj
        rw [hkeep j (by show j < i + 1 ∨ other.m_size ≤ j; omega)]
        show (this.m_data.set this.m_size (some v))[j]? = _
        exact List.getElem?_set_ne (by omega)
      · intro j hj
        rw [hokeep j (by show j < i + 1 ∨ other.m_size ≤ j; omega)]
        show (other.m_data.set i (some (Element.moved_from v)))[j]? = _
        exact List.getElem?_set_ne (by omega)
    · have hEq : i = other.m_size := by omega
      refine ⟨this, other, ?_, by omega, hlen, rfl, ?_, fun _ _ => rfl, hother, rfl, rfl,
        fun _ _ => rfl⟩
      · simp [move_loop, size, h]
      · intro j hij hj; omega

/-- The tail shared by the move constructor and move assignment: the transfer
loop into an empty destination without live slots, then `other.clear()`. -/
theorem move_then_clear_ok [Element T] [ValueElement T] (fuel : Nat)
    (this other : static_vector T Capacity) (hother : Exact other)
    (hlen : this.m_data.length = Capacity) (hsz : this.m_size = 0)
    (hdead : ∀ j, this.live j = false) (hfuel : other.m_size < fuel) :
    ∃ this1 other1,
      ((move_loop fuel 0 (this, other)).andThen id fun _ st =>
        (clear fuel st.2).andThen (fun o => (st.1, o)) fun _ o1 => .ok () (st.1, o1)) =
          .ok () (this1, other1) ∧
      this1.size = other.size ∧
      (∀ i, i < other.size →
        ∃ v, other.operator_index i = .ok v other ∧ this1.operator_index i = .ok v this1) ∧
      Exact this1 ∧ other1.size = 0 ∧ other1.empty = true ∧ ∀ i, other1.live i = false := by
  obtain ⟨this1, other1, h1, hs1, hl1, _, hfill, hkeep, hinv, hos, _, hokeep⟩ :=
    move_loop_ok fuel 0 this other hother.inv hlen hsz (Nat.zero_le _) (by omega)
  obtain ⟨other2, h2, hs2, _, hdead2, hkeep2, _⟩ := clear_ok fuel other1 hinv (by omega)
  refine ⟨this1, other2, ?_, hs1, ?_, ?_, hs2, ?_, ?_⟩
  · rw [h1]
    simp only [Res.andThen]
    rw [h2]
  · intro i hi
    obtain ⟨v, hv⟩ := (live_iff other i).1 (hother.inv.live_below i hi)
    refine ⟨v, operator_index_ok other i v hi hv, ?_⟩
    exact operator_index_ok this1 i v (by rw [hs1]; exact hi)
      (by rw [hfill i (Nat.zero_le _) hi, hv])
  · refine ⟨⟨hl1, by rw [hs1]; exact hother.inv.u8, by rw [hs1]; exact hother.inv.le_cap, ?_⟩, ?_⟩
    · intro j hj
      rw [hs1] at hj
      rw [live_congr this1 other j (hfill j (Nat.zero_le _) hj)]
      exact hother.inv.live_below j hj
    · intro j hj
      rw [hs1] at hj
      rw [live_congr this1 this j (hkeep j (Or.inr hj))]
      exact hdead j
  · simp [empty, size, hs2]
  · intro i
    by_cases hi : i < other1.m_size
    · exact hdead2 i hi
    · rw [live_congr other2 other1 i (hkeep2 i (by omega)),
        live_congr other1 other i (hokeep i (Or.inr (by omega)))]
      exact hother.dead_above i (by omega)

theorem exact_abc_4 : Exact abc_4 where
  inv := reachable_abc_4.inv
  dead_above := by
    intro i hi
    have hi3 : 3 ≤ i := hi
    obtain ⟨k, rfl⟩ : ∃ k, i = k + 3 := ⟨i - 3, by omega⟩
    cases k <;> simp [live, abc_4]

theorem exact_xy_4 : Exact xy_4 where
  inv := (Reachable.push_all [8, 9] default_ctor xy_4 Reachable.init (by rfl)).inv
  dead_above := by
    intro i hi
    have hi2 : 2 ≤ i := hi
    obtain ⟨k, rfl⟩ : ∃ k, i = k + 2 := ⟨i - 2, by omega⟩
    rcases k with _ | _ | k <;> simp [live, xy_4]

/-! ## The loops of `resize` -/

/-- The shrinking loop of `resize` on a state satisfying the invariant: with
`count <= size()` and more fuel than elements to drop it returns with
`size() == count`, having emptied the slots `count .. size() - 1` back to
front and touched nothing else. -/
theorem resize_shrink_ok (count fuel : Nat) (s : static_vector T Capacity) (hs : Inv s)
    (hc : count ≤ s.m_size) (hfuel : s.m_size - count < fuel) :
    ∃ s1, resize_shrink count fuel s = .ok () s1 ∧ s1.m_size = count ∧ Inv s1 ∧
      (∀ j, j < count ∨ s.m_size ≤ j → s1.m_data[j]? = s.m_data[j]?) ∧
      (∀ j, count ≤ j → j < s.m_size → s1.live j = false) ∧
      s1.destroyed = s.destroyed ++ (List.range' count (s.m_size - count)).reverse := by
  induction fuel generalizing s with
  | zero => omega
  | succ fuel ih =>
    by_cases h0 : s.m_size > count
    · have hpos : 0 < s.m_size := by omega
      have hu8 := hs.u8
      obtain ⟨v, hv⟩ := (live_iff s (s.m_size - 1)).1 (hs.live_below _ (by omega))
      have hm : (s.m_size + 255) % 256 = s.m_size - 1 := by omega
      have hlen : s.m_size - 1 < s.m_data.length := by
        by_contra hn
        rw [List.getElem?_eq_none (by omega)] at hv
        cases hv
      obtain ⟨s1, h1, hsz, hinv, hkeep, hdead, hd⟩ :=
        ih _ (inv_popped s hs hpos) (by show count ≤ (s.m_size + 255) % 256; omega)
          (by show (s.m_size + 255) % 256 - count < fuel; omega)
      refine ⟨s1, ?_, hsz, hinv, ?_, ?_, ?_⟩
      · have hc1 : resize_shrink count (fuel + 1) s =
            (pop_back s).andThen id fun _ s2 => resize_shrink count fuel s2 := by
          simp [resize_shrink, h0]
        rw [hc1, pop_back_ok s v hpos hv]
        exact h1
      · intro j hj
        rw [hkeep j (by show j < count ∨ (s.m_size + 255) % 256 ≤ j; omega)]
        exact List.getElem?_set_ne (by omega)
      · intro j hcj hj
        by_cases hj1 : j < s.m_size - 1
        · exact hdead j hcj (by show j < (s.m_size + 255) % 256; omega)
        · have hje : j = s.m_size - 1 := by omega
          have hk := hkeep j (Or.inr (by show (s.m_size + 255) % 256 ≤ j; omega))
          simp only [hje, List.getElem?_set_self hlen] at hk
          subst hje
          simp [live, hk]
      · rw [hd]
        show (s.destroyed ++ [s.m_size - 1]) ++
          (List.range' count ((s.m_size + 255) % 256 - count)).reverse = _
        rw [hm]
        obtain ⟨k, hk⟩ : ∃ k, s.m_size - count = k + 1 := ⟨s.m_size - count - 1, by omega⟩
        have hk1 : s.m_size - 1 - count = k := by omega
        have hk2 : s.m_size - 1 = count + k := by omega
        rw [hk, hk1, List.range'_1_concat, hk2]
        simp
    · have hEq : s.m_size = count := by omega
      refine ⟨s, ?_, hEq, hs, fun _ _ => rfl, ?_, ?_⟩
      · simp [resize_shrink, h0]
      · intro j hcj hj; omega
      · simp [hEq]

/-- The growing loop of `resize(count)` when the counter cannot wrap
(`count <= 255`) and the element constructor succeeds. -/
theorem resize_grow_ok [Element T] [ValueElement T] (count fuel : Nat)
    (s : static_vector T Capacity) (hs : Inv s) (h255 : count ≤ 255)
    (hcap : count ≤ Capacity) (hc : s.m_size ≤ count) (hfuel : count - s.m_size < fuel) :
    ∃ s1, resize_grow count fuel s = .ok () s1 ∧ s1.m_size = count ∧ Inv s1 := by
  induction fuel generalizing s with
  | zero => omega
  | succ fuel ih =>
    by_cases h0 : s.m_size < count
    · obtain ⟨d, hd⟩ := (ValueElement.default_ok : ∃ d : T, Element.default_construct = some d)
      have hlt : s.m_size < Capacity := by omega
      have hmod : (s.m_size + 1) % 256 = s.m_size + 1 := by omega
      obtain ⟨s1, h1, hsz, hinv⟩ :=
        ih _ (inv_emplaced s d hs hlt) (by show (s.m_size + 1) % 256 ≤ count; omega)
          (by show count - (s.m_size + 1) % 256 < fuel; omega)
      refine ⟨s1, ?_, hsz, hinv⟩
      have hc1 : resize_grow count (fuel + 1) s =
          (emplace_back (fun _ : Unit => Element.default_construct) () s).andThen id
            fun _ s2 => resize_grow count fuel s2 := by
        simp [resize_grow, h0]
      rw [hc1, emplace_back_ok _ () d s hlt hd]
      exact h1
    · refine ⟨s, ?_, by omega, hs⟩
      simp [resize_grow, h0]

/-- The growing loop of `resize(count, value)` when the counter cannot wrap
(`count <= 255`) and the copy constructor succeeds. -/
theorem resize_grow_value_ok [Element T] [ValueElement T] (count : Nat) (value : T)
    (fuel : Nat) (s : static_vector T Capacity) (hs : Inv s) (h255 : count ≤ 255)
    (hcap : count ≤ Capacity) (hc : s.m_size ≤ count) (hfuel : count - s.m_size < fuel) :
    ∃ s1, resize_grow_value count value fuel s = .ok () s1 ∧ s1.m_size = count ∧ Inv s1 := by
  induction fuel generalizing s with
  | zero => omega
  | succ fuel ih =>
    by_cases h0 : s.m_size < count
    · have hlt : s.m_size < Capacity := by omega
      have hmod : (s.m_size + 1) % 256 = s.m_size + 1 := by omega
      obtain ⟨s1, h1, hsz, hinv⟩ :=
        ih _ (inv_emplaced s value hs hlt) (by show (s.m_size + 1) % 256 ≤ count; omega)
          (by show count - (s.m_size + 1) % 256 < fuel; omega)
      refine ⟨s1, ?_, hsz, hinv⟩
      have hc1 : resize_grow_value count value (fuel + 1) s =
          (push_back value s).andThen id
            fun _ s2 => resize_grow_value count value fuel s2 := by
        simp [resize_grow_value, h0]
      rw [hc1, push_back_ok value s hlt]
      exact h1
    · refine ⟨s, ?_, by omega, hs⟩
      simp [resize_grow_value, h0]

/-- In the destruction trace of a shrink from `n` to `c` every slot index in
`[c, n)` occurs once and no other index occurs. -/
theorem count_range_reverse (c n i : Nat) (hcn : c ≤ n) :
    ((List.range' c (n - c)).reverse).count i = if c ≤ i ∧ i < n then 1 else 0 := by
  rw [List.count_reverse]
  split
  · next h =>
    exact List.count_eq_one_of_mem (List.nodup_range' c (n - c))
      (List.mem_range'_1.2 ⟨h.1, by omega⟩)
  · next h =>
    apply List.count_eq_zero_of_not_mem
    intro hm
    have := List.mem_range'_1.1 hm
    exact h ⟨this.1, by omega⟩

theorem reachable_abcd_4 : Reachable abcd_4 :=
  Reachable.push_all [1, 2, 3, 4] default_ctor abcd_4 Reachable.init (by rfl)

theorem exact_abcd_4 : Exact abcd_4 where
  inv := reachable_abcd_4.inv
  dead_above := by
    intro i hi
    have hi4 : 4 ≤ i := hi
    obtain ⟨k, rfl⟩ : ∃ k, i = k + 4 := ⟨i - 4, by omega⟩
    simp [live, abcd_4]

/-- Copy assignment between two distinct containers that satisfy the
invariant: it returns, leaves the source untouched, destroys the destination's
former elements back to front, and fills the destination with the source's
elements. -/
theorem copy_assign_ok [Element T] [ValueElement T] (fuel : Nat)
    (A B : static_vector T Capacity) (hA : Inv A) (hB : Inv B)
    (hfa : A.m_size < fuel) (hfb : B.m_size < fuel) :
    ∃ B1, copy_assign fuel false (B, A) = .ok () (B1, A) ∧ B1.size = A.size ∧
      (∀ i, i < A.size →
        ∃ v, A.operator_index i = .ok v A ∧ B1.operator_index i = .ok v B1) ∧
      B1.destroyed = B.destroyed ++ (List.range B.size).reverse ∧
      Inv B1 ∧ (Exact B → Exact B1) := by
  obtain ⟨B0, h0, hs0, hl0, hdead0, hkeep0, hd0⟩ := clear_ok fuel B hB hfb
  obtain ⟨B1, h1, hs1, hl1, hd1, hfill, hkeep⟩ :=
    copy_loop_ok fuel 0 B0 A hA (by rw [hl0]; exact hB.len) hs0 (Nat.zero_le _) (by omega)
  have hinv : Inv B1 := by
    refine ⟨hl1, by rw [hs1]; exact hA.u8, by rw [hs1]; exact hA.le_cap, ?_⟩
    intro j hj
    rw [hs1] at hj
    rw [live_congr B1 A j (hfill j (Nat.zero_le _) hj)]
    exact hA.live_below j hj
  refine ⟨B1, ?_, hs1, ?_, ?_, hinv, ?_⟩
  · simp only [copy_assign, Bool.not_false, if_true, h0, Res.andThen]
    exact h1
  · intro i hi
    obtain ⟨v, hv⟩ := (live_iff A i).1 (hA.live_below i hi)
    exact ⟨v, operator_index_ok A i v hi hv,
      operator_index_ok B1 i v (by rw [hs1]; exact hi) (by rw [hfill i (Nat.zero_le _) hi, hv])⟩
  · rw [hd1, hd0]; rfl
  · intro hE
    refine ⟨hinv, ?_⟩
    intro j hj
    rw [hs1] at hj
    rw [live_congr B1 B0 j (hkeep j (Or.inr hj))]
    by_cases hjb : j < B.m_size
    · exact hdead0 j hjb
    · rw [live_congr B0 B j (hkeep0 j (by omega))]
      exact hE.dead_above j (by omega)

/-! ## Iteration -/

/-- The forward traversal from `it` to `it + n` visits `it, ..., it + n - 1`. -/
theorem visit_forward_ok (n fuel it : Nat) (hfuel : n < fuel) :
    visit_forward fuel it (it + n) = some (List.range' it n) := by
  induction n generalizing fuel it with
  | zero =>
    obtain ⟨f, rfl⟩ : ∃ f, fuel = f + 1 := ⟨fuel - 1, by omega⟩
    simp [visit_forward]
  | succ n ih =>
    obtain ⟨f, rfl⟩ : ∃ f, fuel = f + 1 := ⟨fuel - 1, by omega⟩
    have hne : it ≠ it + (n + 1) := by omega
    have hstep := ih f (it + 1) (by omega)
    have hadd : it + 1 + n = it + (n + 1) := by omega
    rw [hadd] at hstep
    simp [visit_forward, hne, hstep, List.range'_succ]

/-- The reverse traversal from base `b + n` down to base `b` visits
`b + n - 1, ..., b`. -/
theorem visit_reverse_ok (n fuel b : Nat) (hfuel : n < fuel) :
    visit_reverse fuel ⟨b + n⟩ ⟨b⟩ = some (List.range' b n).reverse := by
  induction n generalizing fuel with
  | zero =>
    obtain ⟨f, rfl⟩ : ∃ f, fuel = f + 1 := ⟨fuel - 1, by omega⟩
    simp [visit_reverse]
  | succ n ih =>
    obtain ⟨f, rfl⟩ : ∃ f, fuel = f + 1 := ⟨fuel - 1, by omega⟩
    have hne : b + (n + 1) ≠ b := by omega
    have hstep := ih f (by omega)
    have hsub : b + (n + 1) - 1 = b + n := by omega
    simp [visit_reverse, hne, hsub, hstep, List.range'_1_concat]

/-- Both traversals of a container, for any state. -/
theorem traversal_ok (s : static_vector T Capacity) (fuel : Nat) (hfuel : s.m_size < fuel) :
    visit_forward fuel s.begin s.end = some (List.range s.size) ∧
      visit_reverse fuel s.rbegin s.rend = some (List.range s.size).reverse := by
  have h1 := visit_forward_ok s.m_size fuel 0 hfuel
  have h2 := visit_reverse_ok s.m_size fuel 0 hfuel
  rw [← List.range_eq_range'] at h1 h2
  exact ⟨h1, h2⟩

/-! ## Assertions in the copy and move operations -/

theorem Res.andThen_ne_abort {σ τ α β : Type} (r : Res σ α) (wrap : σ → τ)
    (k : α → σ → Res τ β) (hr : r ≠ .abort)
    (hk : ∀ a s, r = .ok a s → k a s ≠ .abort) : r.andThen wrap k ≠ .abort := by
  cases r with
  | ok a s => exact hk a s rfl
  | thrown e s => simp [Res.andThen]
  | abort => exact absurd rfl hr
  | ub => simp [Res.andThen]
  | timeout => simp [Res.andThen]

theorem operator_index_ne_abort (s : static_vector T Capacity) (i : Nat)
    (hi : i < s.m_size) : s.operator_index i ≠ .abort := by
  simp only [operator_index, size, hi, if_true, read]
  split <;> simp

theorem operator_index_state (s s1 : static_vector T Capacity) (i : Nat) (v : T)
    (h : s.operator_index i = .ok v s1) : s1 = s := by
  unfold operator_index read at h
  split at h
  · split at h
    · simp only [Res.ok.injEq] at h
      exact h.2.symm
    · cases h
  · cases h

theorem emplace_back_ne_abort {A : Type} (ctor : A → Option T) (args : A)
    (s : static_vector T Capacity) (hlt : s.m_size < Capacity) :
    emplace_back ctor args s ≠ .abort := by
  cases hc : ctor args with
  | none => rw [emplace_back_throw ctor args s hlt hc]; simp
  | some v => rw [emplace_back_ok ctor args v s hlt hc]; simp

theorem push_back_ne_abort [Element T] (value : T) (s : static_vector T Capacity)
    (hlt : s.m_size < Capacity) : push_back value s ≠ .abort := by
  rw [push_back_eq]
  exact Res.andThen_ne_abort _ _ _ (emplace_back_ne_abort _ _ s hlt) (fun _ _ _ => by simp)

theorem push_back_move_ne_abort [Element T] (value : T) (s : static_vector T Capacity)
    (hlt : s.m_size < Capacity) : push_back_move value s ≠ .abort := by
  rw [push_back_move_eq]
  exact Res.andThen_ne_abort _ _ _ (emplace_back_ne_abort _ _ s hlt) (fun _ _ _ => by simp)

theorem emplace_back_size_le {A : Type} (ctor : A → Option T) (args : A)
    (s s1 : static_vector T Capacity) (h : (emplace_back ctor args s).state? = some s1) :
    s1.m_size ≤ s.m_size + 1 := by
  obtain ⟨_, h1 | ⟨v, h1⟩⟩ := emplace_back_state ctor args s s1 h
  · rw [h1]; omega
  · rw [h1]; exact Nat.mod_le _ _

theorem pop_back_ne_abort (s : static_vector T Capacity) (h0 : s.m_size ≠ 0) :
    pop_back s ≠ .abort := by
  unfold pop_back
  split
  · split <;> simp
  · next h => simp [empty, size, h0] at h

theorem clear_ne_abort (fuel : Nat) (s : static_vector T Capacity) :
    clear fuel s ≠ .abort := by
  induction fuel generalizing s with
  | zero => simp [clear]
  | succ fuel ih =>
    by_cases h0 : s.m_size = 0
    · simp [clear, empty, size, h0]
    · have hc : clear (fuel + 1) s =
          (pop_back s).andThen id fun _ s2 => clear fuel s2 := by
        simp [clear, empty, size, h0]
      rw [hc]
      exact Res.andThen_ne_abort _ _ _ (pop_back_ne_abort s h0) (fun _ s2 _ => ih s2)

theorem clear_ok_size (fuel : Nat) (s s1 : static_vector T Capacity)
    (h : clear fuel s = .ok () s1) : s1.m_size = 0 := by
  induction fuel generalizing s with
  | zero => simp [clear] at h
  | succ fuel ih =>
    by_cases h0 : s.m_size = 0
    · simp [clear, empty, size, h0] at h
      rw [← h]; exact h0
    · have hc : clear (fuel + 1) s =
          (pop_back s).andThen id fun _ s2 => clear fuel s2 := by
        simp [clear, empty, size, h0]
      rw [hc] at h
      cases hp : pop_back s with
      | ok a s2 => rw [hp] at h; exact ih s2 h
      | thrown e s2 => rw [hp] at h; cases h
      | abort => rw [hp] at h; cases h
      | ub => rw [hp] at h; cases h
      | timeout => rw [hp] at h; cases h

/-- No assertion fails in the copy loop when the destination's size does not
exceed the loop index and the source's size does not exceed the capacity. -/
theorem copy_loop_ne_abort [Element T] (fuel i : Nat)
    (this other : static_vector T Capacity) (hcap : other.m_size ≤ Capacity)
    (hsz : this.m_size ≤ i) : copy_loop fuel i (this, other) ≠ .abort := by
  induction fuel generalizing i this with
  | zero => simp [copy_loop]
  | succ fuel ih =>
    by_cases h : i < other.m_size
    · have hc : copy_loop (fuel + 1) i (this, other) =
          (other.operator_index i).andThen (fun o => (this, o)) fun v other1 =>
            (push_back v this).andThen (fun t => (t, other1)) fun _ this1 =>
              copy_loop fuel (i + 1) (this1, other1) := by
        simp [copy_loop, size, h]
      rw [hc]
      refine Res.andThen_ne_abort _ _ _ (operator_index_ne_abort other i h) ?_
      intro v o ho
      rw [operator_index_state other o i v ho]
      refine Res.andThen_ne_abort _ _ _ (push_back_ne_abort v this (by omega)) ?_
      intro _ this1 hp
      have hle := emplace_back_size_le _ _ this this1
        (push_back_state_emplace v this this1 (by rw [hp]; rfl))
      exact ih (i + 1) this1 (by omega)
    · simp [copy_loop, size, h]

/-- No assertion fails in the move loop under the same conditions. -/
theorem move_loop_ne_abort [Element T] (fuel i : Nat)
    (this other : static_vector T Capacity) (hcap : other.m_size ≤ Capacity)
    (hsz : this.m_size ≤ i) : move_loop fuel i (this, other) ≠ .abort := by
  induction fuel generalizing i this other with
  | zero => simp [move_loop]
  | succ fuel ih =>
    by_cases h : i < other.m_size
    · have hc : move_loop (fuel + 1) i (this, other) =
          (other.operator_index i).andThen (fun o => (this, o)) fun v other1 =>
            (push_back_move v this).andThen (fun t => (t, other1)) fun _ this1 =>
              move_loop fuel (i + 1)
                (this1, { other1 with
                  m_data := other1.m_data.set i (some (Element.moved_from v)) }) := by
        simp [move_loop, size, h]
      rw [hc]
      refine Res.andThen_ne_abort _ _ _ (operator_index_ne_abort other i h) ?_
      intro v o ho
      rw [operator_index_state other o i v ho]
      refine Res.andThen_ne_abort _ _ _ (push_back_move_ne_abort v this (by omega)) ?_
      intro _ this1 hp
      have hle := emplace_back_size_le _ _ this this1
        (push_back_move_state_emplace v this this1 (by rw [hp]; rfl))
      exact ih (i + 1) this1 _ hcap (by omega)
    · simp [move_loop, size, h]

/-! ## Transfers that involve a container whose counter has wrapped -/

theorem clear_of_empty (fuel : Nat) (s : static_vector T Capacity) (h : s.m_size = 0) :
    clear (fuel + 1) s = .ok () s := by
  simp [clear, empty, size, h]

theorem move_loop_done [Element T] (fuel i : Nat) (this other : static_vector T Capacity)
    (h : other.m_size ≤ i) : move_loop (fuel + 1) i (this, other) = .ok () (this, other) := by
  have hn : ¬ i < other.m_size := by omega
  simp [move_loop, size, hn]

set_option maxRecDepth 100000 in
theorem reachable_abc_256 : Reachable abc_256 :=
  Reachable.push_all [1, 2, 3] default_ctor abc_256 Reachable.init (by rfl)

set_option maxRecDepth 100000 in
theorem reachable_wrapped_257 : Reachable wrapped_257 :=
  Reachable.push_back wrapped_256 wrapped_257 7 reachable_wrapped_256 (by decide) (by rfl)

theorem wrapped_256_slot (i : Nat) (hi : i < 256) :
    wrapped_256.m_data[i]? = some (some 7) := by
  show (List.replicate 256 (some 7))[i]? = some (some 7)
  rw [List.getElem?_replicate, if_pos hi]

/-! ## The contract, claim by claim -/

set_option maxRecDepth 100000 in
/-- C1, run at `Capacity = 256`: 256 successive `push_back` calls on a
default-constructed container, each passing its `size() < capacity()` assertion,
leave `size() == 0` instead of 256, so `size() != capacity()`, and a 257th
`push_back` still meets its precondition and returns normally. -/
theorem C1_push_back_256_wraps_size :
    push_all (List.replicate 256 7) (default_ctor : static_vector Nat 256) =
        .ok () wrapped_256 ∧
      wrapped_256.size = 0 ∧ wrapped_256.capacity = 256 ∧
      wrapped_256.size < wrapped_256.capacity ∧
      push_back 7 wrapped_256 = .ok () { wrapped_256 with m_size := 1 } :=
  ⟨push_all_256, rfl, rfl, by decide, by rfl⟩

set_option maxRecDepth 100000 in
/-- C2, run at `Capacity = 256`: the state after 256 `push_back` calls is
reachable with every precondition satisfied, has `size() == 0`, and yet each of
its 256 slots, all of them at or above `size()`, holds a live element. -/
theorem C2_live_slots_above_size_at_256 :
    Reachable wrapped_256 ∧ wrapped_256.size = 0 ∧
      (∀ i, i < 256 → wrapped_256.size ≤ i ∧ wrapped_256.live i = true) ∧
      ¬ Exact wrapped_256 := by
  refine ⟨reachable_wrapped_256, rfl, by decide, ?_⟩
  intro h
  have := h.dead_above 0 (Nat.zero_le _)
  revert this
  decide

/-- C3: for every `Capacity >= 1`, every state reachable from a
default-constructed container by modifier calls made with their preconditions
satisfied has `0 <= size() <= capacity()`. -/
theorem C3_size_le_capacity [Element T] (_hcap : 1 ≤ Capacity)
    (s : static_vector T Capacity) (h : Reachable s) :
    0 ≤ s.size ∧ s.size ≤ s.capacity :=
  ⟨Nat.zero_le _, h.inv.le_cap⟩

theorem C3_size_le_capacity_witness :
    (1 ≤ 4 ∧ Reachable abc_4) ∧ 0 ≤ abc_4.size ∧ abc_4.size ≤ abc_4.capacity :=
  ⟨⟨by decide, reachable_abc_4⟩, C3_size_le_capacity (by decide) abc_4 reachable_abc_4⟩

set_option maxRecDepth 100000 in
/-- C4, run at `Capacity = 256` on the reachable container holding 255
elements: `size() < capacity()` holds, `push_back(7)` and `emplace_back(7)` both
return, the new element sits in slot 255, but `size()` afterwards is 0 and not
the old size plus one, so `operator[](255)` fails its assertion. -/
theorem C4_push_back_at_255_resets_size :
    Reachable filled_255 ∧ filled_255.size = 255 ∧ filled_255.size < filled_255.capacity ∧
      push_back 7 filled_255 = .ok () wrapped_256 ∧
      emplace_back Element.copy_construct 7 filled_255 = .ok 255 wrapped_256 ∧
      wrapped_256.m_data[255]? = some (some 7) ∧
      wrapped_256.size = 0 ∧ wrapped_256.size ≠ filled_255.size + 1 ∧
      wrapped_256.operator_index 255 = .abort :=
  ⟨reachable_filled_255, rfl, by decide, by rfl, by rfl, by rfl, rfl, by decide, by rfl⟩

set_option maxRecDepth 100000 in
/-- C5, run at `Capacity = 256` with `n = 256`: after the 256 `push_back` calls
`empty()` is already true, so the first of the 256 `pop_back` calls fails its
`size() > 0` precondition, while all 256 slots still hold live elements. -/
theorem C5_pop_back_after_256_pushes_aborts :
    push_all (List.replicate 256 7) (default_ctor : static_vector Nat 256) =
        .ok () wrapped_256 ∧
      wrapped_256.empty = true ∧ pop_back wrapped_256 = .abort ∧
      pop_n 256 wrapped_256 = .abort ∧
      wrapped_256.m_data ≠ (default_ctor : static_vector Nat 256).m_data :=
  ⟨push_all_256, rfl, by rfl, by rfl, by decide⟩

/-- C6, run at `Capacity = 256` with `count = 256` on a default-constructed
container: the precondition `count <= capacity()` holds, and neither
`resize(256)` nor `resize(256, 7)` returns, whatever amount of fuel the loops
are given. -/
theorem C6_resize_256_never_returns (fuel : Nat) :
    256 ≤ (default_ctor : static_vector Nat 256).capacity ∧
      resize fuel 256 (default_ctor : static_vector Nat 256) = .timeout ∧
      resize_value fuel 256 7 (default_ctor : static_vector Nat 256) = .timeout := by
  refine ⟨Nat.le_refl _, ?_, ?_⟩
  · cases fuel with
    | zero => rfl
    | succ fuel =>
      have hs : resize_shrink 256 (fuel + 1) (default_ctor : static_vector Nat 256) =
          .ok () default_ctor := rfl
      unfold resize
      rw [if_pos (show 256 ≤ (default_ctor : static_vector Nat 256).capacity from
        Nat.le_refl _), hs]
      exact resize_grow_256_timeout (fuel + 1) default_ctor (by decide)
  · cases fuel with
    | zero => rfl
    | succ fuel =>
      have hs : resize_shrink 256 (fuel + 1) (default_ctor : static_vector Nat 256) =
          .ok () default_ctor := rfl
      unfold resize_value
      rw [if_pos (show 256 ≤ (default_ctor : static_vector Nat 256).capacity from
        Nat.le_refl _), hs]
      exact resize_grow_value_256_timeout 7 (fuel + 1) default_ctor (by decide)

/-- C7: on every container state satisfying the representation invariant (so on
every reachable state) and for every index, `at(index)` throws `out_of_range`
exactly when `index >= size()`, leaving the container as it was; when
`index < size()` it returns the element stored in slot `index`, which is also
what `operator[](index)` returns, and the container is unchanged. -/
theorem C7_at_bounds_checked (s : static_vector T Capacity) (hs : Inv s) (index : Nat) :
    ((∃ e s1, s.at index = .thrown e s1) ↔ index ≥ s.size) ∧
      (index ≥ s.size → s.at index = .thrown .out_of_range s) ∧
      (index < s.size →
        ∃ v, s.m_data[index]? = some (some v) ∧ s.at index = .ok v s ∧
          s.operator_index index = .ok v s) := by
  have hlt : index < s.size →
      ∃ v, s.m_data[index]? = some (some v) ∧ s.at index = .ok v s ∧
        s.operator_index index = .ok v s := by
    intro hi
    obtain ⟨v, hv⟩ := (live_iff s index).1 (hs.live_below index hi)
    have hn : ¬ index ≥ s.size := by omega
    exact ⟨v, hv, by simp [«at», hn, read, hv], by simp [operator_index, hi, read, hv]⟩
  have hge : index ≥ s.size → s.at index = .thrown .out_of_range s := by
    intro hi
    simp [«at», hi]
  refine ⟨⟨?_, fun hi => ⟨_, _, hge hi⟩⟩, hge, hlt⟩
  rintro ⟨e, s1, h⟩
  by_contra hn
  obtain ⟨v, _, hv, _⟩ := hlt (by omega)
  rw [hv] at h
  cases h

theorem C7_at_bounds_checked_witness :
    Inv abc_4 ∧
      (((∃ e s1, abc_4.at 3 = .thrown e s1) ↔ 3 ≥ abc_4.size) ∧
        (3 ≥ abc_4.size → abc_4.at 3 = .thrown .out_of_range abc_4) ∧
        (3 < abc_4.size →
          ∃ v, abc_4.m_data[3]? = some (some v) ∧ abc_4.at 3 = .ok v abc_4 ∧
            abc_4.operator_index 3 = .ok v abc_4)) :=
  ⟨reachable_abc_4.inv, C7_at_bounds_checked abc_4 reachable_abc_4.inv 3⟩

/-- C9: for every source container `A` satisfying the representation invariant
(so for every reachable one), over an element type whose copy constructor
reproduces its argument, copy construction returns (given more fuel than `A`
has elements) a container `B` with `B.size() == A.size()` and `B[i] == A[i]` for
every `i < size()`, and leaves `A` as it was. The copy is independent: the
statement `B[i] = x` changes `B[i]` to `x` and leaves `A` as it was, and the
statement `A[i] = x` leaves `B` as it was. -/
theorem C9_copy_ctor_independent [Element T] [ValueElement T]
    (A : static_vector T Capacity) (hA : Inv A) (fuel : Nat) (hfuel : A.size < fuel) :
    ∃ B, copy_ctor fuel A = .ok () (B, A) ∧ B.size = A.size ∧
      (∀ i, i < A.size →
        ∃ v, A.operator_index i = .ok v A ∧ B.operator_index i = .ok v B) ∧
      (∀ i x, i < A.size →
        ∃ B1, assign_first (B, A) i x = .ok () (B1, A) ∧ B1.operator_index i = .ok x B1) ∧
      (∀ i x, i < A.size →
        ∃ A1, assign_second (B, A) i x = .ok () (B, A1) ∧ A1.operator_index i = .ok x A1) := by
  obtain ⟨B, h1, hs1, hl1, _, hfill, _⟩ :=
    copy_loop_ok fuel 0 (default_ctor : static_vector T Capacity) A hA
      (by simp [default_ctor]) rfl (Nat.zero_le _) (by have h : A.m_size < fuel := hfuel; omega)
  have hcap := hA.le_cap
  have hread : ∀ i, i < A.size →
      ∃ v, A.operator_index i = .ok v A ∧ B.operator_index i = .ok v B := by
    intro i hi
    obtain ⟨v, hv⟩ := (live_iff A i).1 (hA.live_below i hi)
    exact ⟨v, operator_index_ok A i v hi hv,
      operator_index_ok B i v (by rw [hs1]; exact hi) (by rw [hfill i (Nat.zero_le _) hi, hv])⟩
  refine ⟨B, h1, hs1, hread, ?_, ?_⟩
  · intro i x hi
    obtain ⟨v, _, hv⟩ := hread i hi
    have hiB : i < B.m_size := by rw [hs1]; exact hi
    refine ⟨{ B with m_data := B.m_data.set i (some x) }, ?_, ?_⟩
    · simp [assign_first, assign_index, hv, Res.andThen]
    · exact operator_index_ok _ i x hiB
        (List.getElem?_set_self (by rw [hl1]; exact Nat.lt_of_lt_of_le hi hcap))
  · intro i x hi
    obtain ⟨v, hv, _⟩ := hread i hi
    refine ⟨{ A with m_data := A.m_data.set i (some x) }, ?_, ?_⟩
    · simp [assign_second, assign_index, hv, Res.andThen]
    · exact operator_index_ok _ i x hi
        (List.getElem?_set_self (by rw [hA.len]; exact Nat.lt_of_lt_of_le hi hcap))

theorem C9_copy_ctor_independent_witness :
    (Inv abc_4 ∧ abc_4.size < 4) ∧
      ∃ B, copy_ctor 4 abc_4 = .ok () (B, abc_4) ∧ B.size = abc_4.size ∧
        (∀ i, i < abc_4.size →
          ∃ v, abc_4.operator_index i = .ok v abc_4 ∧ B.operator_index i = .ok v B) ∧
        (∀ i x, i < abc_4.size →
          ∃ B1, assign_first (B, abc_4) i x = .ok () (B1, abc_4) ∧
            B1.operator_index i = .ok x B1) ∧
        (∀ i x, i < abc_4.size →
          ∃ A1, assign_second (B, abc_4) i x = .ok () (B, A1) ∧
            A1.operator_index i = .ok x A1) :=
  ⟨⟨reachable_abc_4.inv, by decide⟩,
    C9_copy_ctor_independent abc_4 reachable_abc_4.inv 4 (by decide)⟩

/-- Moves between containers that meet the data-model invariant. For every
source container `A` and every distinct destination `B`, both
satisfying the data-model invariant (exactly the slots `[0, size())` live),
over an element type whose move constructor reproduces its argument, move
construction and move assignment return (given more fuel than either container
has elements) with the destination holding `A`'s former elements, same size
and same index order, and nothing else, and with `A` left at `size() == 0`,
`empty()` true and no live slot. -/
theorem move_of_exact [Element T] [ValueElement T]
    (A B : static_vector T Capacity) (hA : Exact A) (hB : Exact B) (fuel : Nat)
    (hfa : A.size < fuel) (hfb : B.size < fuel) :
    (∃ B1 A1, move_ctor fuel A = .ok () (B1, A1) ∧ B1.size = A.size ∧
      (∀ i, i < A.size →
        ∃ v, A.operator_index i = .ok v A ∧ B1.operator_index i = .ok v B1) ∧
      Exact B1 ∧ A1.size = 0 ∧ A1.empty = true ∧ ∀ i, A1.live i = false) ∧
    (∃ B1 A1, move_assign fuel false (B, A) = .ok () (B1, A1) ∧ B1.size = A.size ∧
      (∀ i, i < A.size →
        ∃ v, A.operator_index i = .ok v A ∧ B1.operator_index i = .ok v B1) ∧
      Exact B1 ∧ A1.size = 0 ∧ A1.empty = true ∧ ∀ i, A1.live i = false) := by
  constructor
  · exact move_then_clear_ok fuel default_ctor A hA (by simp [default_ctor]) rfl
      (fun j => exact_default_ctor.dead_above j (Nat.zero_le _)) hfa
  · obtain ⟨B0, h0, hs0, hl0, hdead0, hkeep0, _⟩ := clear_ok fuel B hB.inv hfb
    have hdead : ∀ j, B0.live j = false := by
      intro j
      by_cases hj : j < B.m_size
      · exact hdead0 j hj
      · rw [live_congr B0 B j (hkeep0 j (by omega))]
        exact hB.dead_above j (by omega)
    obtain ⟨B1, A1, h1, hrest⟩ :=
      move_then_clear_ok fuel B0 A hA (by rw [hl0]; exact hB.inv.len) hs0 hdead hfa
    refine ⟨B1, A1, ?_, hrest⟩
    simp only [move_assign, Bool.not_false, if_true, h0, Res.andThen]
    exact h1

theorem move_of_exact_example :
    (Exact abc_4 ∧ Exact xy_4 ∧ abc_4.size < 4 ∧ xy_4.size < 4) ∧
      move_ctor 4 abc_4 =
        .ok () (abc_4, { m_data := [none, none, none, none], m_size := 0,
                         destroyed := [2, 1, 0] }) ∧
      move_assign 4 false (xy_4, abc_4) =
        .ok () ({ abc_4 with destroyed := [1, 0] },
                { m_data := [none, none, none, none], m_size := 0,
                  destroyed := [2, 1, 0] }) ∧
      ((∃ B1 A1, move_ctor 4 abc_4 = .ok () (B1, A1) ∧ B1.size = abc_4.size ∧
        (∀ i, i < abc_4.size →
          ∃ v, abc_4.operator_index i = .ok v abc_4 ∧ B1.operator_index i = .ok v B1) ∧
        Exact B1 ∧ A1.size = 0 ∧ A1.empty = true ∧ ∀ i, A1.live i = false) ∧
      (∃ B1 A1, move_assign 4 false (xy_4, abc_4) = .ok () (B1, A1) ∧
        B1.size = abc_4.size ∧
        (∀ i, i < abc_4.size →
          ∃ v, abc_4.operator_index i = .ok v abc_4 ∧ B1.operator_index i = .ok v B1) ∧
        Exact B1 ∧ A1.size = 0 ∧ A1.empty = true ∧ ∀ i, A1.live i = false)) :=
  ⟨⟨exact_abc_4, exact_xy_4, by decide, by decide⟩, by rfl, by rfl,
    move_of_exact abc_4 xy_4 exact_abc_4 exact_xy_4 4
      (by decide) (by decide)⟩

/-- C11: for every container satisfying the representation invariant (so every
reachable one) and every `count < size()`, `resize(count)` and
`resize(count, value)` return (given more fuel than elements to drop) the same
state, with `size() == count`, the elements at indices `[0, count)` and the
slots at or above the old size unchanged, the elements formerly at
`count .. size() - 1` destroyed, and the destruction trace extended by exactly
`size() - 1, ..., count` in that order, each index once. -/
theorem C11_resize_shrinks_back_to_front [Element T] (s : static_vector T Capacity)
    (hs : Inv s) (count : Nat) (value : T) (hc : count < s.size) (fuel : Nat)
    (hfuel : s.size - count < fuel) :
    ∃ s1, resize fuel count s = .ok () s1 ∧ resize_value fuel count value s = .ok () s1 ∧
      s1.size = count ∧
      (∀ i, i < count →
        ∃ v, s.operator_index i = .ok v s ∧ s1.operator_index i = .ok v s1) ∧
      (∀ i, i < count ∨ s.size ≤ i → s1.m_data[i]? = s.m_data[i]?) ∧
      (∀ i, count ≤ i → i < s.size → s.live i = true ∧ s1.live i = false) ∧
      s1.destroyed = s.destroyed ++ (List.range' count (s.size - count)).reverse ∧
      (∀ i, ((List.range' count (s.size - count)).reverse).count i =
        if count ≤ i ∧ i < s.size then 1 else 0) := by
  have hc1 : count < s.m_size := hc
  have hcap : count ≤ Capacity := by have := hs.le_cap; omega
  obtain ⟨fuel, rfl⟩ : ∃ f, fuel = f + 1 := ⟨fuel - 1, by omega⟩
  obtain ⟨s1, h1, hsz, _, hkeep, hdead, hd⟩ :=
    resize_shrink_ok count (fuel + 1) s hs (by omega) hfuel
  have hn : ¬ s1.m_size < count := by omega
  refine ⟨s1, ?_, ?_, hsz, ?_, hkeep, ?_, hd, ?_⟩
  · simp [resize, capacity, hcap, h1, Res.andThen, resize_grow, hn]
  · simp [resize_value, capacity, hcap, h1, Res.andThen, resize_grow_value, hn]
  · intro i hi
    obtain ⟨v, hv⟩ := (live_iff s i).1 (hs.live_below i (by omega))
    exact ⟨v, operator_index_ok s i v (by omega) hv,
      operator_index_ok s1 i v (by omega) (by rw [hkeep i (Or.inl hi), hv])⟩
  · intro i hci hi
    exact ⟨hs.live_below i hi, hdead i hci hi⟩
  · intro i
    exact count_range_reverse count s.size i (by omega)

theorem C11_resize_shrinks_back_to_front_witness :
    (Inv abcd_4 ∧ 2 < abcd_4.size ∧ abcd_4.size - 2 < 3) ∧
      resize 3 2 abcd_4 =
        .ok () { m_data := [some 1, some 2, none, none], m_size := 2, destroyed := [3, 2] } ∧
      ∃ s1, resize 3 2 abcd_4 = .ok () s1 ∧ resize_value 3 2 7 abcd_4 = .ok () s1 ∧
        s1.size = 2 ∧
        (∀ i, i < 2 →
          ∃ v, abcd_4.operator_index i = .ok v abcd_4 ∧ s1.operator_index i = .ok v s1) ∧
        (∀ i, i < 2 ∨ abcd_4.size ≤ i → s1.m_data[i]? = abcd_4.m_data[i]?) ∧
        (∀ i, 2 ≤ i → i < abcd_4.size → abcd_4.live i = true ∧ s1.live i = false) ∧
        s1.destroyed = abcd_4.destroyed ++ (List.range' 2 (abcd_4.size - 2)).reverse ∧
        (∀ i, ((List.range' 2 (abcd_4.size - 2)).reverse).count i =
          if 2 ≤ i ∧ i < abcd_4.size then 1 else 0) :=
  ⟨⟨reachable_abcd_4.inv, by decide, by decide⟩, by rfl,
    C11_resize_shrinks_back_to_front abcd_4 reachable_abcd_4.inv 2 7 (by decide) 3
      (by decide)⟩

/-- C12, run at `Capacity = 256` with `count = 256`: on the container holding
`[1, 2, 3]` and on an empty one, `size() < count <= capacity()` holds, and
`resize(256, v)` does not return for any value `v`, whatever amount of fuel its
loops are given, so no state with `size() == count` is ever produced. -/
theorem C12_resize_value_256_never_returns (fuel v : Nat) :
    (abc_256.size < 256 ∧ 256 ≤ abc_256.capacity) ∧
      resize_value fuel 256 v abc_256 = .timeout ∧
      (default_ctor : static_vector Nat 256).size < 256 ∧
      resize_value fuel 256 v (default_ctor : static_vector Nat 256) = .timeout := by
  have key : ∀ s : static_vector Nat 256, s.m_size < 256 →
      resize_value fuel 256 v s = .timeout := by
    intro s hs
    cases fuel with
    | zero => rfl
    | succ fuel =>
      have hn : ¬ s.m_size > 256 := by omega
      have hsh : resize_shrink 256 (fuel + 1) s = .ok () s := by
        simp [resize_shrink, hn]
      unfold resize_value
      rw [if_pos (show 256 ≤ s.capacity from Nat.le_refl _), hsh]
      exact resize_grow_value_256_timeout v (fuel + 1) s hs
  exact ⟨⟨by decide, Nat.le_refl _⟩, key abc_256 (by decide), by decide,
    key default_ctor (by decide)⟩

/-- C13: for every container satisfying the representation invariant with
`size() > 0`, `pop_back()` returns; it destroys the element at index
`size() - 1` and nothing else (the trace grows by that one index, that slot is
no longer live, every other slot is unchanged), `size()` drops by exactly one,
and the elements at indices `[0, size() - 1)` are unchanged. -/
theorem C13_pop_back_frame (s : static_vector T Capacity) (hs : Inv s)
    (hpos : s.size > 0) :
    ∃ s1, pop_back s = .ok () s1 ∧ s1.size + 1 = s.size ∧
      s.live (s.size - 1) = true ∧ s1.live (s.size - 1) = false ∧
      s1.destroyed = s.destroyed ++ [s.size - 1] ∧
      (∀ i, i ≠ s.size - 1 → s1.m_data[i]? = s.m_data[i]?) ∧
      (∀ i, i < s.size - 1 →
        ∃ v, s.operator_index i = .ok v s ∧ s1.operator_index i = .ok v s1) := by
  have hpos1 : 0 < s.m_size := hpos
  have hu8 := hs.u8
  have hcap := hs.le_cap
  have hlive := hs.live_below (s.m_size - 1) (by omega)
  obtain ⟨v, hv⟩ := (live_iff s (s.m_size - 1)).1 hlive
  have hm : (s.m_size + 255) % 256 + 1 = s.m_size := by omega
  have hkeep : ∀ i, i ≠ s.m_size - 1 →
      (s.m_data.set (s.m_size - 1) none)[i]? = s.m_data[i]? :=
    fun i hi => List.getElem?_set_ne (fun h => hi h.symm)
  refine ⟨_, pop_back_ok s v hpos1 hv, hm, hlive, ?_, rfl, hkeep, ?_⟩
  · show live _ (s.m_size - 1) = false
    simp [live, List.getElem?_set_self (show s.m_size - 1 < s.m_data.length by
      rw [hs.len]; omega)]
  · intro i hi
    have hi1 : i < s.m_size - 1 := hi
    obtain ⟨w, hw⟩ := (live_iff s i).1 (hs.live_below i (by omega))
    refine ⟨w, operator_index_ok s i w (by omega) hw, ?_⟩
    exact operator_index_ok _ i w (by show i < (s.m_size + 255) % 256; omega)
      (by rw [← hw]; exact hkeep i (by omega))

theorem C13_pop_back_frame_witness :
    (Inv abc_4 ∧ abc_4.size > 0) ∧
      pop_back abc_4 =
        .ok () { m_data := [some 1, some 2, none, none], m_size := 2, destroyed := [2] } ∧
      ∃ s1, pop_back abc_4 = .ok () s1 ∧ s1.size + 1 = abc_4.size ∧
        abc_4.live (abc_4.size - 1) = true ∧ s1.live (abc_4.size - 1) = false ∧
        s1.destroyed = abc_4.destroyed ++ [abc_4.size - 1] ∧
        (∀ i, i ≠ abc_4.size - 1 → s1.m_data[i]? = abc_4.m_data[i]?) ∧
        (∀ i, i < abc_4.size - 1 →
          ∃ v, abc_4.operator_index i = .ok v abc_4 ∧ s1.operator_index i = .ok v s1) :=
  ⟨⟨reachable_abc_4.inv, by decide⟩, by rfl,
    C13_pop_back_frame abc_4 reachable_abc_4.inv (by decide)⟩

/-- C14: for every container state in which exactly the slots `[0, size())` are
live, `clear()` and the destructor return once they have more fuel than there
are elements, leave `size() == 0` with no live slot, and extend the
destruction trace by the indices `size() - 1, ..., 0`, each of the formerly
live slots once and no other slot, regardless of the entry size. -/
theorem C14_clear_destroys_each_once (s : static_vector T Capacity) (hs : Exact s)
    (fuel : Nat) (hfuel : s.size < fuel) :
    ∃ s1, clear fuel s = .ok () s1 ∧ dtor fuel s = .ok () s1 ∧
      s1.size = 0 ∧ s1.empty = true ∧ (∀ i, s1.live i = false) ∧
      s1.destroyed = s.destroyed ++ (List.range s.size).reverse ∧
      (∀ i, ((List.range s.size).reverse).count i = if i < s.size then 1 else 0) := by
  obtain ⟨s1, h1, hsz, _, hdead, hkeep, hd⟩ := clear_ok fuel s hs.inv hfuel
  refine ⟨s1, h1, h1, hsz, by simp [empty, size, hsz], ?_, ?_, ?_⟩
  · intro i
    by_cases hi : i < s.m_size
    · exact hdead i hi
    · rw [live_congr s1 s i (hkeep i (by omega))]
      exact hs.dead_above i (by omega)
  · exact hd
  · intro i
    have h := count_range_reverse 0 s.size i (Nat.zero_le _)
    rw [List.range_eq_range']
    simpa using h

theorem C14_clear_destroys_each_once_witness :
    (Exact abcd_4 ∧ abcd_4.size < 5) ∧
      clear 5 abcd_4 =
        .ok () { m_data := [none, none, none, none], m_size := 0,
                 destroyed := [3, 2, 1, 0] } ∧
      ∃ s1, clear 5 abcd_4 = .ok () s1 ∧ dtor 5 abcd_4 = .ok () s1 ∧
        s1.size = 0 ∧ s1.empty = true ∧ (∀ i, s1.live i = false) ∧
        s1.destroyed = abcd_4.destroyed ++ (List.range abcd_4.size).reverse ∧
        (∀ i, ((List.range abcd_4.size).reverse).count i =
          if i < abcd_4.size then 1 else 0) :=
  ⟨⟨exact_abcd_4, by decide⟩, by rfl,
    C14_clear_destroys_each_once abcd_4 exact_abcd_4 5 (by decide)⟩

/-- Copy assignment between containers that meet the representation invariant.
For every source `A` and every two distinct destinations `B`, `B2`, all
satisfying the representation invariant, over an element type whose copy
constructor reproduces its argument, copy assignment returns (given more fuel
than any of them has elements) with `A` unchanged, with every former element of
the destination destroyed, and with the destination at `size() == A.size()` and
`[i] == A[i]` for every `i < size()`: the same size and elements whichever
destination was assigned to. A destination that had exactly its slots
`[0, size())` live ends with exactly the slots `[0, A.size())` live. -/
theorem copy_assign_of_inv [Element T] [ValueElement T]
    (A B B2 : static_vector T Capacity) (hA : Inv A) (hB : Inv B) (hB2 : Inv B2)
    (fuel : Nat) (hfa : A.size < fuel) (hfb : B.size < fuel) (hfb2 : B2.size < fuel) :
    ∃ B1 B3, copy_assign fuel false (B, A) = .ok () (B1, A) ∧
      copy_assign fuel false (B2, A) = .ok () (B3, A) ∧
      B1.size = A.size ∧ B3.size = A.size ∧
      (∀ i, i < A.size →
        ∃ v, A.operator_index i = .ok v A ∧ B1.operator_index i = .ok v B1 ∧
          B3.operator_index i = .ok v B3) ∧
      B1.destroyed = B.destroyed ++ (List.range B.size).reverse ∧
      (Exact B → Exact B1) := by
  obtain ⟨B1, h1, hs1, hr1, hd1, _, hE1⟩ := copy_assign_ok fuel A B hA hB hfa hfb
  obtain ⟨B3, h3, hs3, hr3, _, _, _⟩ := copy_assign_ok fuel A B2 hA hB2 hfa hfb2
  refine ⟨B1, B3, h1, h3, hs1, hs3, ?_, hd1, hE1⟩
  intro i hi
  obtain ⟨v, hv, hv1⟩ := hr1 i hi
  obtain ⟨w, hw, hw3⟩ := hr3 i hi
  rw [hv] at hw
  cases hw
  exact ⟨v, hv, hv1, hw3⟩

theorem copy_assign_of_inv_example :
    (Inv abc_4 ∧ Inv xy_4 ∧ Inv abcd_4 ∧ abc_4.size < 5 ∧ xy_4.size < 5 ∧ abcd_4.size < 5) ∧
      copy_assign 5 false (xy_4, abc_4) =
        .ok () ({ abc_4 with destroyed := [1, 0] }, abc_4) ∧
      copy_assign 5 false (abcd_4, abc_4) =
        .ok () ({ abc_4 with destroyed := [3, 2, 1, 0] }, abc_4) ∧
      ∃ B1 B3, copy_assign 5 false (xy_4, abc_4) = .ok () (B1, abc_4) ∧
        copy_assign 5 false (abcd_4, abc_4) = .ok () (B3, abc_4) ∧
        B1.size = abc_4.size ∧ B3.size = abc_4.size ∧
        (∀ i, i < abc_4.size →
          ∃ v, abc_4.operator_index i = .ok v abc_4 ∧ B1.operator_index i = .ok v B1 ∧
            B3.operator_index i = .ok v B3) ∧
        B1.destroyed = xy_4.destroyed ++ (List.range xy_4.size).reverse ∧
        (Exact xy_4 → Exact B1) :=
  ⟨⟨reachable_abc_4.inv, exact_xy_4.inv, reachable_abcd_4.inv, by decide, by decide,
      by decide⟩, by rfl, by rfl,
    copy_assign_of_inv abc_4 xy_4 abcd_4 reachable_abc_4.inv exact_xy_4.inv
      reachable_abcd_4.inv 5 (by decide) (by decide) (by decide)⟩

/-- C16: in every state `capacity()` and `max_size()` equal the compile-time
`Capacity`, and they still do in every state left behind by `push_back` (both
forms), `emplace_back`, `pop_back`, `resize` (both forms), `clear`, copy
assignment and move assignment, on either operand. -/
theorem C16_capacity_is_constant [Element T] (s : static_vector T Capacity) :
    s.capacity = Capacity ∧ s.max_size = Capacity ∧
      (∀ v s1, (push_back v s).state? = some s1 →
        s1.capacity = s.capacity ∧ s1.max_size = s.max_size) ∧
      (∀ v s1, (push_back_move v s).state? = some s1 →
        s1.capacity = s.capacity ∧ s1.max_size = s.max_size) ∧
      (∀ (ctor : Unit → Option T) s1, (emplace_back ctor () s).state? = some s1 →
        s1.capacity = s.capacity ∧ s1.max_size = s.max_size) ∧
      (∀ s1, (pop_back s).state? = some s1 →
        s1.capacity = s.capacity ∧ s1.max_size = s.max_size) ∧
      (∀ fuel count s1, (resize fuel count s).state? = some s1 →
        s1.capacity = s.capacity ∧ s1.max_size = s.max_size) ∧
      (∀ fuel count v s1, (resize_value fuel count v s).state? = some s1 →
        s1.capacity = s.capacity ∧ s1.max_size = s.max_size) ∧
      (∀ fuel s1, (clear fuel s).state? = some s1 →
        s1.capacity = s.capacity ∧ s1.max_size = s.max_size) ∧
      (∀ fuel aliased other st, (copy_assign fuel aliased (s, other)).state? = some st →
        st.1.capacity = s.capacity ∧ st.1.max_size = s.max_size ∧
          st.2.capacity = other.capacity ∧ st.2.max_size = other.max_size) ∧
      (∀ fuel aliased other st, (move_assign fuel aliased (s, other)).state? = some st →
        st.1.capacity = s.capacity ∧ st.1.max_size = s.max_size ∧
          st.2.capacity = other.capacity ∧ st.2.max_size = other.max_size) :=
  ⟨rfl, rfl, fun _ _ _ => ⟨rfl, rfl⟩, fun _ _ _ => ⟨rfl, rfl⟩, fun _ _ _ => ⟨rfl, rfl⟩,
    fun _ _ => ⟨rfl, rfl⟩, fun _ _ _ _ => ⟨rfl, rfl⟩, fun _ _ _ _ _ => ⟨rfl, rfl⟩,
    fun _ _ _ => ⟨rfl, rfl⟩, fun _ _ _ _ _ => ⟨rfl, rfl, rfl, rfl⟩,
    fun _ _ _ _ _ => ⟨rfl, rfl, rfl, rfl⟩⟩

/-- C17: for every container state, `end() - begin() == size()`; the traversal
of `[begin(), end())` returns (given more fuel than elements) having visited
exactly the slots `0, 1, ..., size() - 1` in that order, `size()` of them and
none at an index `>= size()`; the traversal of `[rbegin(), rend())` visits the
same slots in exactly the reverse order; each visited slot holds a live element
when the state satisfies the representation invariant; and in the state left
by `push_back` or `pop_back` the re-obtained `begin()` / `end()` span the new
`size()`. -/
theorem C17_iteration_covers_live_range [Element T] (s : static_vector T Capacity)
    (fuel : Nat) (hfuel : s.size < fuel) :
    s.end - s.begin = s.size ∧
      visit_forward fuel s.begin s.end = some (List.range s.size) ∧
      (List.range s.size).length = s.size ∧
      (∀ i, i ∈ List.range s.size → i < s.size) ∧
      visit_reverse fuel s.rbegin s.rend = some (List.range s.size).reverse ∧
      (Inv s → ∀ i, i ∈ List.range s.size → ∃ v, s.read i = .ok v s) ∧
      (∀ v s1, push_back v s = .ok () s1 →
        s1.end - s1.begin = s1.size ∧
          visit_forward (s1.size + 1) s1.begin s1.end = some (List.range s1.size)) ∧
      (∀ s1, pop_back s = .ok () s1 →
        s1.end - s1.begin = s1.size ∧
          visit_forward (s1.size + 1) s1.begin s1.end = some (List.range s1.size)) := by
  have hspan : ∀ t : static_vector T Capacity, t.end - t.begin = t.size := by
    intro t
    simp [«end», begin, data]
  refine ⟨hspan s, (traversal_ok s fuel hfuel).1, List.length_range _,
    fun i hi => List.mem_range.1 hi, (traversal_ok s fuel hfuel).2, ?_, ?_, ?_⟩
  · intro hs i hi
    obtain ⟨v, hv⟩ := (live_iff s i).1 (hs.live_below i (List.mem_range.1 hi))
    exact ⟨v, by simp [read, hv]⟩
  · intro v s1 _
    exact ⟨hspan s1, (traversal_ok s1 (s1.size + 1) (Nat.lt_succ_self _)).1⟩
  · intro s1 _
    exact ⟨hspan s1, (traversal_ok s1 (s1.size + 1) (Nat.lt_succ_self _)).1⟩

theorem C17_iteration_covers_live_range_witness :
    abc_4.size < 4 ∧
      visit_forward 4 abc_4.begin abc_4.end = some [0, 1, 2] ∧
      visit_reverse 4 abc_4.rbegin abc_4.rend = some [2, 1, 0] ∧
      (abc_4.end - abc_4.begin = abc_4.size ∧
        visit_forward 4 abc_4.begin abc_4.end = some (List.range abc_4.size) ∧
        (List.range abc_4.size).length = abc_4.size ∧
        (∀ i, i ∈ List.range abc_4.size → i < abc_4.size) ∧
        visit_reverse 4 abc_4.rbegin abc_4.rend = some (List.range abc_4.size).reverse ∧
        (Inv abc_4 → ∀ i, i ∈ List.range abc_4.size → ∃ v, abc_4.read i = .ok v abc_4) ∧
        (∀ v s1, push_back v abc_4 = .ok () s1 →
          s1.end - s1.begin = s1.size ∧
            visit_forward (s1.size + 1) s1.begin s1.end = some (List.range s1.size)) ∧
        (∀ s1, pop_back abc_4 = .ok () s1 →
          s1.end - s1.begin = s1.size ∧
            visit_forward (s1.size + 1) s1.begin s1.end = some (List.range s1.size))) :=
  ⟨by decide, by rfl, by rfl, C17_iteration_covers_live_range abc_4 4 (by decide)⟩

/-- C18: for every `Capacity <= 255`, over an element type whose constructors
succeed, on every container satisfying the representation invariant: with
`size() < capacity()` the counter does not wrap and `push_back` and
`emplace_back` return with `size()` exactly one higher, and for every
`count <= capacity()` both `resize(count)` and `resize(count, value)` return
(given more fuel than the old size and than `count`) with `size() == count`. -/
theorem C18_no_wrap_up_to_255 [Element T] [ValueElement T] (hcap : Capacity ≤ 255)
    (s : static_vector T Capacity) (hs : Inv s) :
    (s.size < s.capacity →
      (s.m_size + 1) % 256 = s.m_size + 1 ∧
        (∀ v, ∃ s1, push_back v s = .ok () s1 ∧ s1.size = s.size + 1) ∧
        (∀ v, ∃ s1, push_back_move v s = .ok () s1 ∧ s1.size = s.size + 1) ∧
        (∀ (ctor : Unit → Option T) v, ctor () = some v →
          ∃ s1, emplace_back ctor () s = .ok s.size s1 ∧ s1.size = s.size + 1)) ∧
      (∀ count fuel value, count ≤ s.capacity → s.size < fuel → count < fuel →
        (∃ s1, resize fuel count s = .ok () s1 ∧ s1.size = count) ∧
          ∃ s1, resize_value fuel count value s = .ok () s1 ∧ s1.size = count) := by
  constructor
  · intro hlt
    have hlt1 : s.m_size < Capacity := hlt
    have hmod : (s.m_size + 1) % 256 = s.m_size + 1 := by omega
    refine ⟨hmod, ?_, ?_, ?_⟩
    · intro v
      exact ⟨_, push_back_ok v s hlt1, hmod⟩
    · intro v
      exact ⟨_, push_back_move_ok v s hlt1, hmod⟩
    · intro ctor v hv
      exact ⟨_, emplace_back_ok ctor () v s hlt1 hv, hmod⟩
  · intro count fuel value hc hf1 hf2
    have hc1 : count ≤ Capacity := hc
    have hf3 : s.m_size < fuel := hf1
    obtain ⟨s0, h0, hs0, hinv0⟩ : ∃ s0, resize_shrink count fuel s = .ok () s0 ∧
        s0.m_size ≤ count ∧ Inv s0 := by
      by_cases hle : count ≤ s.m_size
      · obtain ⟨s0, h0, hsz, hinv, _⟩ := resize_shrink_ok count fuel s hs hle (by omega)
        exact ⟨s0, h0, by omega, hinv⟩
      · obtain ⟨f, rfl⟩ : ∃ f, fuel = f + 1 := ⟨fuel - 1, by omega⟩
        have hn : ¬ s.m_size > count := by omega
        exact ⟨s, by simp [resize_shrink, hn], by omega, hs⟩
    obtain ⟨s1, h1, hsz1, _⟩ :=
      resize_grow_ok count fuel s0 hinv0 (by omega) hc1 hs0 (by omega)
    obtain ⟨s2, h2, hsz2, _⟩ :=
      resize_grow_value_ok count value fuel s0 hinv0 (by omega) hc1 hs0 (by omega)
    refine ⟨⟨s1, ?_, hsz1⟩, ⟨s2, ?_, hsz2⟩⟩
    · simp [resize, capacity, hc1, h0, Res.andThen, h1]
    · simp [resize_value, capacity, hc1, h0, Res.andThen, h2]

theorem C18_no_wrap_up_to_255_witness :
    (4 ≤ 255 ∧ Inv abc_4) ∧
      resize_value 5 4 7 abc_4 = .ok () { abcd_4 with m_data := [some 1, some 2, some 3, some 7] } ∧
      ((abc_4.size < abc_4.capacity →
        (abc_4.m_size + 1) % 256 = abc_4.m_size + 1 ∧
          (∀ v, ∃ s1, push_back v abc_4 = .ok () s1 ∧ s1.size = abc_4.size + 1) ∧
          (∀ v, ∃ s1, push_back_move v abc_4 = .ok () s1 ∧ s1.size = abc_4.size + 1) ∧
          (∀ (ctor : Unit → Option Nat) v, ctor () = some v →
            ∃ s1, emplace_back ctor () abc_4 = .ok abc_4.size s1 ∧
              s1.size = abc_4.size + 1)) ∧
        (∀ count fuel value, count ≤ abc_4.capacity → abc_4.size < fuel → count < fuel →
          (∃ s1, resize fuel count abc_4 = .ok () s1 ∧ s1.size = count) ∧
            ∃ s1, resize_value fuel count value abc_4 = .ok () s1 ∧ s1.size = count)) :=
  ⟨⟨by decide, reachable_abc_4.inv⟩, by rfl,
    C18_no_wrap_up_to_255 (by decide) abc_4 reachable_abc_4.inv⟩

/-- C19: self-assignment is a no-op. When `this == std::addressof(other)`, copy
assignment and move assignment return at once, whatever the fuel, with the
container exactly as it was: same size, same elements, nothing destroyed; in
particular the move form does not empty it. -/
theorem C19_self_assignment_is_noop [Element T] (A : static_vector T Capacity)
    (fuel : Nat) :
    copy_assign fuel true (A, A) = .ok () (A, A) ∧
      move_assign fuel true (A, A) = .ok () (A, A) :=
  ⟨rfl, rfl⟩

/-- C20: for every source container of the same `Capacity` with
`size() <= capacity()`, whatever the destination, the element type and the
fuel, no assertion fails during copy construction, move construction, copy
assignment or move assignment: none of them ends in an assertion failure, so
every `operator[](i)` of the transfer loop is called with `i < other.size()`,
every `push_back` with the destination's `size() < capacity()`, and every
`pop_back` of `clear()` on a non-empty container. -/
theorem C20_no_assertion_fires_in_transfers [Element T]
    (this other : static_vector T Capacity) (hsz : other.size ≤ other.capacity)
    (fuel : Nat) (aliased : Bool) :
    copy_ctor fuel other ≠ .abort ∧ move_ctor fuel other ≠ .abort ∧
      copy_assign fuel aliased (this, other) ≠ .abort ∧
      move_assign fuel aliased (this, other) ≠ .abort := by
  have hcap : other.m_size ≤ Capacity := hsz
  have htail : ∀ st : static_vector T Capacity × static_vector T Capacity,
      ((clear fuel st.2).andThen (fun o => (st.1, o)) fun _ o1 =>
        (Res.ok () (st.1, o1) :
          Res (static_vector T Capacity × static_vector T Capacity) Unit)) ≠ .abort :=
    fun st => Res.andThen_ne_abort _ _ _ (clear_ne_abort fuel st.2) (fun _ _ _ => by simp)
  have hmove : ∀ t : static_vector T Capacity, t.m_size = 0 →
      ((move_loop fuel 0 (t, other)).andThen id fun _ st =>
        (clear fuel st.2).andThen (fun o => (st.1, o)) fun _ o1 =>
          (Res.ok () (st.1, o1) :
            Res (static_vector T Capacity × static_vector T Capacity) Unit)) ≠ .abort :=
    fun t ht => Res.andThen_ne_abort _ _ _
      (move_loop_ne_abort fuel 0 t other hcap (by omega)) (fun _ st _ => htail st)
  refine ⟨copy_loop_ne_abort fuel 0 default_ctor other hcap (Nat.le_refl _),
    hmove default_ctor rfl, ?_, ?_⟩
  · cases aliased with
    | true => simp [copy_assign]
    | false =>
      simp only [copy_assign, Bool.not_false, if_true]
      refine Res.andThen_ne_abort _ _ _ (clear_ne_abort fuel this) ?_
      intro _ this1 h1
      exact copy_loop_ne_abort fuel 0 this1 other hcap
        (by rw [clear_ok_size fuel this this1 h1])
  · cases aliased with
    | true => simp [move_assign]
    | false =>
      simp only [move_assign, Bool.not_false, if_true]
      refine Res.andThen_ne_abort _ _ _ (clear_ne_abort fuel this) ?_
      intro _ this1 h1
      exact hmove this1 (clear_ok_size fuel this this1 h1)

theorem C20_no_assertion_fires_in_transfers_witness :
    abc_4.size ≤ abc_4.capacity ∧
      (copy_ctor 9 abc_4 ≠ .abort ∧ move_ctor 9 abc_4 ≠ .abort ∧
        copy_assign 9 false (xy_4, abc_4) ≠ .abort ∧
        move_assign 9 false (xy_4, abc_4) ≠ .abort) :=
  ⟨by decide, C20_no_assertion_fires_in_transfers xy_4 abc_4 (by decide) 9 false⟩

set_option maxRecDepth 100000 in
/-- C10, run at `Capacity = 256` on the reachable source left by 256
`push_back` calls: move construction and move assignment (into the container
holding `[1, 2, 3]`) both return, whatever fuel beyond the minimum they get,
with the source exactly as it was, so at `size() == 0` but with all of its 256
slots still live. On the reachable source left by 257 `push_back` calls, move
construction transfers the one counted element and leaves the source at
`size() == 0` with slots `1 .. 255` still live. -/
theorem C10_move_leaves_live_slots_at_256 (fuel : Nat) :
    (Reachable wrapped_256 ∧ Reachable abc_256 ∧ Reachable wrapped_257) ∧
      move_ctor (fuel + 1) wrapped_256 = .ok () (default_ctor, wrapped_256) ∧
      (∃ B1, move_assign (fuel + 4) false (abc_256, wrapped_256) =
        .ok () (B1, wrapped_256) ∧ B1.size = 0) ∧
      wrapped_256.size = 0 ∧ (∀ i, i < 256 → wrapped_256.live i = true) ∧
      move_ctor 2 wrapped_257 =
        .ok () ({ m_data := some 7 :: List.replicate 255 none, m_size := 1, destroyed := [] },
                { m_data := none :: List.replicate 255 (some 7), m_size := 0,
                  destroyed := [0] }) ∧
      (∀ i, i < 256 → 0 < i →
        live ({ m_data := none :: List.replicate 255 (some 7), m_size := 0,
                destroyed := [0] } : static_vector Nat 256) i = true) := by
  refine ⟨⟨reachable_wrapped_256, reachable_abc_256, reachable_wrapped_257⟩, ?_, ?_, rfl,
    by decide, by rfl, by decide⟩
  · unfold move_ctor
    rw [move_loop_done fuel 0 default_ctor wrapped_256 (Nat.le_refl _)]
    simp only [Res.andThen]
    rw [clear_of_empty fuel wrapped_256 rfl]
  · obtain ⟨B0, h0, hs0, _⟩ :=
      clear_ok (fuel + 4) abc_256 reachable_abc_256.inv
        (by show 3 < fuel + 4; omega)
    refine ⟨B0, ?_, hs0⟩
    simp only [move_assign, Bool.not_false, if_true, h0, Res.andThen]
    rw [move_loop_done (fuel + 3) 0 B0 wrapped_256 (Nat.le_refl _)]
    simp only [Res.andThen]
    rw [clear_of_empty (fuel + 3) wrapped_256 rfl]

set_option maxRecDepth 100000 in
/-- C15, run at `Capacity = 256` with the reachable destination left by 256
`push_back(7)` calls and the source holding `[1, 2, 3]`: copy assignment
returns, whatever fuel beyond the minimum it gets, with the destination at
`size() == 3`, but it has destroyed none of the destination's 256 prior
elements (the destruction trace is still empty) and the slots `3 .. 255` still
hold the prior elements, live. -/
theorem C15_copy_assign_keeps_prior_elements_at_256 (fuel : Nat) :
    (Reachable wrapped_256 ∧ Reachable abc_256) ∧
      (∀ i, i < 256 → wrapped_256.live i = true) ∧
      (∃ B1, copy_assign (fuel + 4) false (wrapped_256, abc_256) = .ok () (B1, abc_256) ∧
        B1.size = 3 ∧ B1.destroyed = [] ∧
        (∀ i, 3 ≤ i → i < 256 → B1.m_data[i]? = some (some 7) ∧ B1.live i = true)) ∧
      copy_assign 4 false (wrapped_256, abc_256) =
        .ok () ({ m_data := [some 1, some 2, some 3] ++ List.replicate 253 (some 7),
                  m_size := 3, destroyed := [] }, abc_256) := by
  refine ⟨⟨reachable_wrapped_256, reachable_abc_256⟩, by decide, ?_, by rfl⟩
  obtain ⟨B1, h1, hs1, _, hd1, _, hkeep⟩ :=
    copy_loop_ok (fuel + 4) 0 wrapped_256 abc_256 reachable_abc_256.inv
      reachable_wrapped_256.inv.len rfl (Nat.zero_le _) (by show 3 - 0 < fuel + 4; omega)
  have hslot : ∀ i, 3 ≤ i → i < 256 → B1.m_data[i]? = some (some 7) := by
    intro i h3 hi
    rw [hkeep i (Or.inr h3)]
    exact wrapped_256_slot i hi
  refine ⟨B1, ?_, hs1, hd1, ?_⟩
  · simp only [copy_assign, Bool.not_false, if_true, Res.andThen]
    rw [clear_of_empty (fuel + 3) wrapped_256 rfl]
    exact h1
  · intro i h3 hi
    exact ⟨hslot i h3 hi, (live_iff B1 i).2 ⟨7, hslot i h3 hi⟩⟩

end static_vector

end CobbleGuard
